import Mathlib

/-
Verification of the SREA scheduler core (src/scheduler/srea.py) against its
natural-language specification.

The embedding below translates srea.py into Lean:
  * `setUpLP`     — the LP model builder (srea.py lines 42-87),
  * `srea_LP`     — the risk-constraint injector and solve (lines 177-266),
  * `srea`        — the binary-search risk calibrator (lines 90-174).

External collaborators that are not part of the sources are modelled at their
interface boundary, exactly as the spec describes them (section 6):
  * the PSTN temporal-network class (`STN` structure and its accessors),
  * the Gaussian inverse CDF `invcdf_norm` (an abstract function parameter),
  * the uniform inverse CDF `invcdf_uniform` (modelled from the spec),
  * the minimal-network reducer `get_minimal_network` (a function parameter),
  * the PuLP LP solver (an `Oracle` parameter returning a status and a
    valuation of the LP variables).

Numbers are idealized as rationals.  PuLP LP-variable objects are mutable and
shared between binary-search trials; we model the mutable attributes
(lowBound/upBound, varValue) as explicit state of type `Var -> VarDom` and
`Var -> Rat` threaded through the computation, keyed by the structured
identity of the variable.  Instrumentation that does not alter the
computation (the `Event` trace and the `probes` ghost field) records which
collaborators were invoked and which alpha ticks were probed.
-/

set_option linter.unusedVariables false

namespace SREA

/-- Nodes of a temporal network; node 0 is the distinguished reference timepoint. -/
abbrev Node := Nat

/-- Modelled from the spec: the distribution tag carried by a contingent
constraint — `gaussian` with (mu, sigma) or `uniform` with (dist_lb, dist_ub)
(section 3; the PSTN constraint class is not among the sources). -/
inductive Dist
  | gaussian (mu sigma : ℚ)
  | uniform (dist_lb dist_ub : ℚ)
deriving DecidableEq

/-- Modelled from the spec: the Temporal Network contract of section 6 —
`nodes()`, `edges()`, `get_edge_weight(i,j)`, `update_edge_weight(i,j,v)` and
`get_contingent_constraints()` (the PSTN class is not among the sources).
Edge weight w(i,j) bounds time(j) - time(i). -/
structure STN where
  nodes : List Node
  edges : List (Node × Node)
  w : Node → Node → ℚ
  contingent : List ((Node × Node) × Dist)

/-- Modelled from the spec: `get_edge_weight(i,j) -> number`. -/
def STN.get_edge_weight (s : STN) (i j : Node) : ℚ := s.w i j

/-- Modelled from the spec: `update_edge_weight(i,j,value)` overwrites the
weight of edge (i,j). -/
def STN.update_edge_weight (s : STN) (i j : Node) (v : ℚ) : STN :=
  { s with w := fun a b => if a = i ∧ b = j then v else s.w a b }

/-- Keys of the contingent-constraint mapping (`(i, j) in contingent_constraints`). -/
def contingentKeys (s : STN) : List (Node × Node) := s.contingent.map Prod.fst

/-- The sign tag of a bound variable: source uses the characters plus and minus. -/
inductive Sign
  | plus
  | minus
deriving DecidableEq

/-- Structured identity of an LP variable: `t_i_hi`/`t_i_lo` per node i
(the bounds dict) and `delta_i_j` per contingent pair (the deltas dict). -/
inductive Var
  | bnd (i : Node) (s : Sign)
  | dlt (i j : Node)
deriving DecidableEq

/-- The mutable lowBound/upBound attributes of a PuLP LpVariable. -/
structure VarDom where
  lowBound : Option ℚ
  upBound : Option ℚ
deriving DecidableEq

/-- Pointwise update of the variable-attribute state. -/
def setDom (d : Var → VarDom) (v : Var) (vd : VarDom) : Var → VarDom :=
  fun x => if x = v then vd else d x

/-- Comparison sense of a PuLP constraint. -/
inductive Rel
  | le
  | ge
  | equal
deriving DecidableEq

/-- A linear constraint in canonical form: all variable terms on the left,
the constant on the right, e.g. `a - b <= w` is terms [(1,a),(-1,b)], le, w. -/
structure LinCon where
  terms : List (ℚ × Var)
  rel : Rel
  rhs : ℚ
deriving DecidableEq

/-- Value of a linear-term list under a valuation of the variables. -/
def evalTerms (f : Var → ℚ) (ts : List (ℚ × Var)) : ℚ :=
  (ts.map (fun t => t.1 * f t.2)).sum

/-- Satisfaction of a linear constraint by a valuation. -/
def LinCon.holds (c : LinCon) (f : Var → ℚ) : Prop :=
  match c.rel with
  | Rel.le => evalTerms f c.terms ≤ c.rhs
  | Rel.ge => c.rhs ≤ evalTerms f c.terms
  | Rel.equal => evalTerms f c.terms = c.rhs

/-- A PuLP problem: its accumulated constraint list, its objective (a sum of
variables once set) and its optimization sense (`pulp.LpMaximize`). -/
structure LpProblem where
  constraints : List LinCon
  objective : Option (List Var)
  maximize : Bool
deriving DecidableEq

/-- Source `addConstraint(constraint, problem)`: appends a constraint
(`problem += constraint`). -/
def addConstraint (c : LinCon) (p : LpProblem) : LpProblem :=
  { p with constraints := p.constraints ++ [c] }

/-- The problem created by `pulp.LpProblem(name, pulp.LpMaximize)`. -/
def emptyProb : LpProblem :=
  { constraints := [], objective := none, maximize := true }

/-- Per-node constraint `bounds[(i,'+')] >= bounds[(i,'-')]` (srea.py line 67). -/
def geCon (i : Node) : LinCon :=
  { terms := [(1, Var.bnd i Sign.plus), (-1, Var.bnd i Sign.minus)],
    rel := Rel.ge, rhs := 0 }

/-- Requirement-edge constraint `bounds[(j,'+')] - bounds[(i,'-')] <= w(i,j)`
(srea.py line 83). -/
def reqCon1 (stn : STN) (i j : Node) : LinCon :=
  { terms := [(1, Var.bnd j Sign.plus), (-1, Var.bnd i Sign.minus)],
    rel := Rel.le, rhs := stn.get_edge_weight i j }

/-- Requirement-edge constraint `bounds[(i,'+')] - bounds[(j,'-')] <= w(j,i)`
(srea.py line 85). -/
def reqCon2 (stn : STN) (i j : Node) : LinCon :=
  { terms := [(1, Var.bnd i Sign.plus), (-1, Var.bnd j Sign.minus)],
    rel := Rel.le, rhs := stn.get_edge_weight j i }

/-- The state built by `setUpLP`: the key lists of the `bounds` and `deltas`
dicts (in insertion order), the variable-attribute state and the base problem. -/
structure LPSetup where
  bounds : List (Node × Sign)
  deltas : List (Node × Node)
  dom : Var → VarDom
  prob : LpProblem

/-- The static interval assigned to both bound variables of node i:
lowBound `-w(i,0)`, upBound `w(0,i)` (srea.py lines 59-65). -/
def staticDom (stn : STN) (i : Node) : VarDom :=
  { lowBound := some (-(stn.get_edge_weight i 0)),
    upBound := some (stn.get_edge_weight 0 i) }

/-- Body of the node loop of `setUpLP` (srea.py lines 58-68): create the two
bound variables of node i with static interval [-w(i,0), w(0,i)] and add the
constraint plus-bound >= minus-bound. -/
def nodeStep (stn : STN) (s : LPSetup) (i : Node) : LPSetup :=
  { bounds := s.bounds ++ [(i, Sign.plus), (i, Sign.minus)],
    deltas := s.deltas,
    dom := setDom (setDom s.dom (Var.bnd i Sign.plus) (staticDom stn i))
             (Var.bnd i Sign.minus) (staticDom stn i),
    prob := addConstraint (geCon i) s.prob }

/-- Body of the edge loop of `setUpLP` (srea.py lines 71-86): contingent edges
get a forward and a backward delta variable with lowBound 0 and no upBound;
other edges contribute the two requirement constraints exactly when neither
endpoint is the reference node, the reverse edge is not contingent, and
`decouple` is false. -/
def edgeStep (stn : STN) (decouple : Bool) (s : LPSetup) (e : Node × Node) : LPSetup :=
  match e with
  | (i, j) =>
    if (i, j) ∈ contingentKeys stn then
      { s with
        deltas := s.deltas ++ [(i, j), (j, i)],
        dom := setDom (setDom s.dom (Var.dlt i j) { lowBound := some 0, upBound := none })
                 (Var.dlt j i) { lowBound := some 0, upBound := none } }
    else
      if i ≠ 0 ∧ j ≠ 0 ∧ (j, i) ∉ contingentKeys stn ∧ decouple = false then
        { s with prob := addConstraint (reqCon2 stn i j) (addConstraint (reqCon1 stn i j) s.prob) }
      else s

/-- `setUpLP(stn, decouple)` (srea.py lines 42-87). -/
def setUpLP (stn : STN) (decouple : Bool) : LPSetup :=
  let s0 : LPSetup :=
    { bounds := [], deltas := [],
      dom := fun _ => { lowBound := none, upBound := none }, prob := emptyProb }
  let s1 := stn.nodes.foldl (nodeStep stn) s0
  stn.edges.foldl (edgeStep stn decouple) s1

/-- Type of the external Gaussian inverse CDF `invcdf_norm(p, mu, sigma)`
(the Quantile Provider contract of spec section 6; the module
scheduler.temporal_networks.distempirical is not among the sources, so the
function stays an abstract parameter of the development). -/
abbrev InvNorm := ℚ → ℚ → ℚ → ℚ

/-- Modelled from the spec: the Quantile Provider contract
`quantile_uniform(p, lb, ub)` (scheduler.temporal_networks.distempirical is
not among the sources).  The uniform inverse CDF maps p linearly onto the
support, so quantile 0 is dist_lb and quantile 1 is dist_ub — the exact
support bounds of the distribution. -/
def invcdf_uniform (p dist_lb dist_ub : ℚ) : ℚ :=
  dist_lb + p * (dist_ub - dist_lb)

/-- The quantile of a tagged distribution, in the spec language
`quantile(D, p)`; dispatches to the provider of the family. -/
def quantile (invcdf_norm : InvNorm) (d : Dist) (p : ℚ) : ℚ :=
  match d with
  | Dist.gaussian mu sigma => invcdf_norm p mu sigma
  | Dist.uniform dist_lb dist_ub => invcdf_uniform p dist_lb dist_ub

/-- The forward probabilistic bound `p_ij = quantile(D, 1 - alpha/2)`
(srea.py lines 212 and 218). -/
def pFwd (invcdf_norm : InvNorm) (d : Dist) (alpha : ℚ) : ℚ :=
  quantile invcdf_norm d (1 - alpha * (1/2))

/-- The backward probabilistic bound `p_ji = -quantile(D, alpha/2)`
(srea.py lines 213 and 220). -/
def pBwd (invcdf_norm : InvNorm) (d : Dist) (alpha : ℚ) : ℚ :=
  -(quantile invcdf_norm d (alpha * (1/2)))

/-- The fixed forward extreme-tail limit: `quantile(D, 0.997)` for a Gaussian
distribution and `quantile(D, 0)` for a uniform one (srea.py lines 214, 221). -/
def limitFwd (invcdf_norm : InvNorm) (d : Dist) : ℚ :=
  match d with
  | Dist.gaussian mu sigma => invcdf_norm (997/1000) mu sigma
  | Dist.uniform dist_lb dist_ub => invcdf_uniform 0 dist_lb dist_ub

/-- The fixed backward extreme-tail limit: `-quantile(D, 0.003)` for a
Gaussian distribution and `-quantile(D, 1)` for a uniform one (srea.py lines
215, 222). -/
def limitBwd (invcdf_norm : InvNorm) (d : Dist) : ℚ :=
  match d with
  | Dist.gaussian mu sigma => -(invcdf_norm (3/1000) mu sigma)
  | Dist.uniform dist_lb dist_ub => -(invcdf_uniform 1 dist_lb dist_ub)

/-- Round-half-to-even of a rational to an integer, as Python `round` does. -/
def roundHalfEven (x : ℚ) : ℤ :=
  let f := Int.floor x
  let r := x - (f : ℚ)
  if r < 1/2 then f
  else if 1/2 < r then f + 1
  else if f % 2 = 0 then f else f + 1

/-- Python `round(float(alpha), 3)` (srea.py line 199), idealized on rationals. -/
def round3 (x : ℚ) : ℚ :=
  ((roundHalfEven (x * 1000) : ℤ) : ℚ) / 1000

/-- Equality constraint `bounds[(j,'+')] - bounds[(i,'+')] == p_ij + deltas[(i,j)]`
(srea.py line 227), variables moved left. -/
def cons1Con (i j : Node) (p_ij : ℚ) : LinCon :=
  { terms := [(1, Var.bnd j Sign.plus), (-1, Var.bnd i Sign.plus), (-1, Var.dlt i j)],
    rel := Rel.equal, rhs := p_ij }

/-- Equality constraint `bounds[(j,'-')] - bounds[(i,'-')] == -p_ji - deltas[(j,i)]`
(srea.py line 228), variables moved left. -/
def cons2Con (i j : Node) (p_ji : ℚ) : LinCon :=
  { terms := [(1, Var.bnd j Sign.minus), (-1, Var.bnd i Sign.minus), (1, Var.dlt j i)],
    rel := Rel.equal, rhs := -p_ji }

/-- Common tail of the contingent-constraint loop body (srea.py lines 224-232):
assign `deltas[(i,j)].upBound` twice in sequence — first `limit_ij - p_ij`,
then `limit_ji - p_ji` — and add the two equality constraints. -/
def contingentFinish (i j : Node) (p_ij p_ji limit_ij limit_ji : ℚ)
    (acc : LpProblem × (Var → VarDom)) : LpProblem × (Var → VarDom) :=
  let dom1 := setDom acc.2 (Var.dlt i j)
      { lowBound := (acc.2 (Var.dlt i j)).lowBound, upBound := some (limit_ij - p_ij) }
  let dom2 := setDom dom1 (Var.dlt i j)
      { lowBound := (dom1 (Var.dlt i j)).lowBound, upBound := some (limit_ji - p_ji) }
  (addConstraint (cons2Con i j p_ji) (addConstraint (cons1Con i j p_ij) acc.1), dom2)

/-- One pass of the contingent-constraint loop of `srea_LP`
(srea.py lines 210-232): compute the alpha-quantiles and the fixed
extreme-tail limits per distribution family, then finish. -/
def contingentStep (invcdf_norm : InvNorm) (alpha : ℚ)
    (acc : LpProblem × (Var → VarDom)) (e : (Node × Node) × Dist) :
    LpProblem × (Var → VarDom) :=
  match e with
  | ((i, j), Dist.gaussian mu sigma) =>
    let p_ij := invcdf_norm (1 - alpha * (1/2)) mu sigma
    let p_ji := -(invcdf_norm (alpha * (1/2)) mu sigma)
    let limit_ij := invcdf_norm (997/1000) mu sigma
    let limit_ji := -(invcdf_norm (3/1000) mu sigma)
    contingentFinish i j p_ij p_ji limit_ij limit_ji acc
  | ((i, j), Dist.uniform dist_lb dist_ub) =>
    let p_ij := invcdf_uniform (1 - alpha * (1/2)) dist_lb dist_ub
    let p_ji := -(invcdf_uniform (alpha * (1/2)) dist_lb dist_ub)
    let limit_ij := invcdf_uniform 0 dist_lb dist_ub
    let limit_ji := -(invcdf_uniform 1 dist_lb dist_ub)
    contingentFinish i j p_ij p_ji limit_ij limit_ji acc

/-- Construction part of `srea_LP` after the type guard and rounding
(srea.py lines 208-239): layer the alpha-dependent constraints of every
contingent constraint onto the problem and set the objective to the sum of
all delta variables (`sum([deltas[(i, j)] for i, j in deltas])`). -/
def srea_LP_prepare (invcdf_norm : InvNorm) (stn : STN) (alpha : ℚ)
    (deltaKeys : List (Node × Node)) (prob : LpProblem) (dom : Var → VarDom) :
    LpProblem × (Var → VarDom) :=
  let folded := stn.contingent.foldl (contingentStep invcdf_norm alpha) (prob, dom)
  ({ folded.1 with objective := some (deltaKeys.map (fun e => Var.dlt e.1 e.2)) },
   folded.2)

/-- The statuses `pulp.LpStatus` can report after a solve. -/
inductive LpStatus
  | Optimal
  | NotSolved
  | Infeasible
  | Unbounded
  | Undefined
deriving DecidableEq

/-- The LP Solver Oracle of spec section 6: given the problem and the current
variable attributes it returns a status and a valuation of the variables
(the varValue attributes it writes). -/
abbrev Oracle := LpProblem → (Var → VarDom) → LpStatus × (Var → ℚ)

/-- The `probContainer` argument of `srea_LP`: the (bounds, deltas, prob)
triple of `setUpLP` together with the shared mutable variable state. -/
structure ProbC where
  bounds : List (Node × Sign)
  deltas : List (Node × Node)
  prob : LpProblem
  dom : Var → VarDom
  vals : Var → ℚ

/-- Resolution of the optional probContainer (srea.py lines 201-206): when
none was passed, generate all LP variables afresh from the current STN. -/
def resolvePC (stn : STN) (decouple : Bool) (probContainer : Option ProbC) : ProbC :=
  match probContainer with
  | none =>
    let s := setUpLP stn decouple
    { bounds := s.bounds, deltas := s.deltas, prob := s.prob, dom := s.dom,
      vals := fun _ => 0 }
  | some c => c

/-- Body of `srea_LP` on a well-typed input (srea.py lines 199-266): round
alpha to three decimals, resolve the probContainer, inject the risk
constraints, solve, and return the bounds dict exactly when the status is
Optimal — every other status yields no value.  The updated variable
attributes and values are returned alongside because the variable objects
are shared with the caller. -/
def srea_LP_core (o : Oracle) (invcdf_norm : InvNorm) (stn : STN) (alpha : ℚ)
    (decouple : Bool) (probContainer : Option ProbC) :
    Option (List (Node × Sign)) × (Var → VarDom) × (Var → ℚ) :=
  let alphaR := round3 alpha
  let c := resolvePC stn decouple probContainer
  let prepared := srea_LP_prepare invcdf_norm stn alphaR c.deltas c.prob c.dom
  let solved := o prepared.1 prepared.2
  (if solved.1 = LpStatus.Optimal then some c.bounds else none, prepared.2, solved.2)

/-- The problem/attribute pair that `srea_LP` hands to the solver: the
resolved container's base problem with the risk constraints of the rounded
alpha injected. -/
def preparedLP (invcdf_norm : InvNorm) (stn : STN) (alpha : ℚ) (decouple : Bool)
    (probContainer : Option ProbC) : LpProblem × (Var → VarDom) :=
  srea_LP_prepare invcdf_norm stn (round3 alpha)
    (resolvePC stn decouple probContainer).deltas
    (resolvePC stn decouple probContainer).prob
    (resolvePC stn decouple probContainer).dom

/-- The runtime type guard of `srea_LP` (srea.py line 196): the input is
either a genuine PSTN or some other object. -/
inductive NetInput
  | pstn (s : STN)
  | other

/-- The error raised when the input is not a PSTN (`TypeError`). -/
inductive SreaError
  | typeError
deriving DecidableEq

/-- `srea_LP(inputstn, alpha, decouple, probContainer)` (srea.py lines
177-266): raise TypeError when the input is not of the Temporal-Network
kind, otherwise run the injector body. -/
def srea_LP (o : Oracle) (invcdf_norm : InvNorm) (inp : NetInput) (alpha : ℚ)
    (decouple : Bool) (probContainer : Option ProbC) :
    Except SreaError (Option (List (Node × Sign)) × (Var → VarDom) × (Var → ℚ)) :=
  match inp with
  | NetInput.other => Except.error SreaError.typeError
  | NetInput.pstn stn =>
    Except.ok (srea_LP_core o invcdf_norm stn alpha decouple probContainer)

/-- Initial lower tick of the binary search, `lower = ceil(lb * 1000) - 1`
(srea.py line 113). -/
def initLower (lb : ℚ) : ℤ := Int.ceil (lb * 1000) - 1

/-- Initial upper tick of the binary search, `upper = floor(ub * 1000) + 1`
(srea.py line 114). -/
def initUpper (ub : ℚ) : ℤ := Int.floor (ub * 1000) + 1

/-- Instrumentation: which external collaborator `srea` invoked, in order.
A solve event records the alpha tried and whether the trial LP was feasible. -/
inductive Event
  | reduce
  | build
  | solve (alpha : ℚ) (feasible : Bool)
deriving DecidableEq

/-- A successful value of `srea`: `(alpha, outputstn)` when returnAlpha is
requested, the bare network otherwise. -/
inductive SreaRet
  | pair (alpha : ℚ) (outputstn : STN)
  | net (outputstn : STN)

/-- Outcome of the calibrator loop: a normal return (some schedule or none),
or the trailing `assert(False)` of srea.py line 174. -/
inductive SreaOut
  | ret (r : Option SreaRet)
  | assertFail

/-- State of the binary-search loop: the tick interval, the best recorded
(alpha, bounds-dict) pair, the shared mutable variable attributes and values,
and a ghost list of the ticks probed so far with their feasibility. -/
structure LoopState where
  lower : ℤ
  upper : ℤ
  result : Option (ℚ × List (Node × Sign))
  dom : Var → VarDom
  vals : Var → ℚ
  probes : List (ℤ × Bool)

/-- The commit of the winning bounds onto the network (srea.py lines
155-161): for every key (i, sign) of the bounds dict, write
`w(0,i) = ceil(bounds[(i,'+')].varValue)` when sign is plus and
`w(i,0) = ceil(-bounds[(i,'-')].varValue)` when sign is minus. -/
def commitBounds (s : STN) (keys : List (Node × Sign)) (vals : Var → ℚ) : STN :=
  keys.foldl (fun acc k =>
    match k with
    | (i, Sign.plus) =>
      acc.update_edge_weight 0 i ((Int.ceil (vals (Var.bnd i Sign.plus)) : ℤ) : ℚ)
    | (i, Sign.minus) =>
      acc.update_edge_weight i 0 ((Int.ceil (-(vals (Var.bnd i Sign.minus))) : ℤ) : ℚ)) s

/-- One iteration of the binary-search loop (srea.py lines 128-146): probe
`alpha = alphas[(upper + lower) // 2]` (the dictionary maps tick m to
m / 1000; Python `//` is floor division, which `Int./` implements for the
positive divisor 2).  The trial receives the base problem `probBase.copy()`
— a fresh copy of the constraint container — while the variable attributes
and values are the shared state.  On feasibility, shrink `upper` to the
midpoint and record the result; otherwise raise `lower` to the midpoint. -/
def sreaIter (o : Oracle) (invcdf_norm : InvNorm) (stn : STN) (decouple : Bool)
    (bk : List (Node × Sign)) (dk : List (Node × Node)) (probBase : LpProblem)
    (st : LoopState) : LoopState × Event :=
  let mid := (st.upper + st.lower) / 2
  let alpha := (mid : ℚ) / 1000
  let r := srea_LP_core o invcdf_norm stn alpha decouple
      (some { bounds := bk, deltas := dk, prob := probBase, dom := st.dom, vals := st.vals })
  match r.1 with
  | some LPbounds =>
    ({ st with
       upper := mid,
       result := some (alpha, LPbounds),
       dom := r.2.1,
       vals := r.2.2,
       probes := st.probes ++ [(mid, true)] },
     Event.solve alpha true)
  | none =>
    ({ st with
       lower := mid,
       dom := r.2.1,
       vals := r.2.2,
       probes := st.probes ++ [(mid, false)] },
     Event.solve alpha false)

/-- The binary-search loop of `srea` (srea.py lines 127-174), together with
the two loop exits: the in-loop commit branch (lines 149-166) and the
post-loop fall-through where a recorded result would hit `assert(False)`
(line 174).  Returns the outcome and the trace of solve events. -/
def sreaLoop (o : Oracle) (invcdf_norm : InvNorm) (stn : STN)
    (decouple returnAlpha : Bool) (bk : List (Node × Sign))
    (dk : List (Node × Node)) (probBase : LpProblem) (st : LoopState) :
    SreaOut × List Event :=
  if h : 1 < st.upper - st.lower then
    let it := sreaIter o invcdf_norm stn decouple bk dk probBase st
    if it.1.upper - it.1.lower ≤ 1 then
      match it.1.result with
      | some ar =>
        (SreaOut.ret (some (if returnAlpha then
            SreaRet.pair ar.1 (commitBounds stn ar.2 it.1.vals)
          else
            SreaRet.net (commitBounds stn ar.2 it.1.vals))), [it.2])
      | none =>
        let rest := sreaLoop o invcdf_norm stn decouple returnAlpha bk dk probBase it.1
        (rest.1, it.2 :: rest.2)
    else
      let rest := sreaLoop o invcdf_norm stn decouple returnAlpha bk dk probBase it.1
      (rest.1, it.2 :: rest.2)
  else
    match st.result with
    | none => (SreaOut.ret none, [])
    | some _ => (SreaOut.assertFail, [])
termination_by (st.upper - st.lower).toNat
decreasing_by
  all_goals
    have hb : (sreaIter o invcdf_norm stn decouple bk dk probBase st).1.upper -
        (sreaIter o invcdf_norm stn decouple bk dk probBase st).1.lower <
        st.upper - st.lower := by
      unfold sreaIter
      dsimp only
      split <;> dsimp only <;> omega
    omega

/-- The network the calibrator works on: the reduced copy produced by the
Minimal-Network Reducer when `decouple` is false (srea.py lines 119-123),
the deep copy of the input itself otherwise.  None signals inconsistency. -/
def workingNet (get_minimal_network : STN → Option STN) (inputstn : STN)
    (decouple : Bool) : Option STN :=
  if decouple then some inputstn else get_minimal_network inputstn

/-- `srea(inputstn, returnAlpha, decouple, lb, ub)` (srea.py lines 90-174).
The deep copy of line 108 is value semantics here: the caller's network is
never shared.  When the reducer reports inconsistency the function returns
the no-schedule value immediately, before any LP is built or solved. -/
def srea (o : Oracle) (invcdf_norm : InvNorm)
    (get_minimal_network : STN → Option STN) (inputstn : STN)
    (returnAlpha decouple : Bool) (lb ub : ℚ) : SreaOut × List Event :=
  let lower := initLower lb
  let upper := initUpper ub
  match workingNet get_minimal_network inputstn decouple with
  | none => (SreaOut.ret none, [Event.reduce])
  | some stn =>
    let setup := setUpLP stn decouple
    let run := sreaLoop o invcdf_norm stn decouple returnAlpha
        setup.bounds setup.deltas setup.prob
        { lower := lower, upper := upper, result := none,
          dom := setup.dom, vals := fun _ => 0, probes := [] }
    (run.1, (if decouple then [Event.build] else [Event.reduce, Event.build]) ++ run.2)

/-- The network carried by a successful calibrator value. -/
def retNet (r : SreaRet) : STN :=
  match r with
  | SreaRet.pair _ n => n
  | SreaRet.net n => n

/-- The alphas of the feasible trials of a trace, in order: the last entry
(when one exists) is the alpha of the last recorded result. -/
def feasAlphas (evs : List Event) : List ℚ :=
  evs.filterMap (fun e =>
    match e with
    | Event.solve a true => some a
    | _ => none)

/-- The binary-search invariant of spec section 4.3 step 4, relative to the
initial ticks l0 and u0: `lower` is the greatest known-or-assumed-infeasible
tick (the initial lower tick is the assumed one), and `upper` is the least
known-feasible tick, or the initial sentinel u0 while no feasible tick was
found — in which case no feasible probe exists at all and no result is
recorded. -/
def SearchInv (l0 u0 : ℤ) (st : LoopState) : Prop :=
  (st.lower = l0 ∨ (st.lower, false) ∈ st.probes) ∧
  (∀ p ∈ st.probes, p.2 = false → p.1 ≤ st.lower) ∧
  (st.result = none → st.upper = u0 ∧ ∀ p ∈ st.probes, p.2 = false) ∧
  (st.result.isSome = true → (st.upper, true) ∈ st.probes) ∧
  (∀ p ∈ st.probes, p.2 = true → st.upper ≤ p.1)

/-
Concrete instances used by the witnesses below.
-/

/-- A concrete quantile provider: the identity in p. -/
def icn0 : InvNorm := fun p _ _ => p

/-- An oracle whose solver always reports Optimal, all values 0. -/
def oOpt : Oracle := fun _ _ => (LpStatus.Optimal, fun _ => 0)

/-- An oracle whose solver always reports Infeasible. -/
def oInf : Oracle := fun _ _ => (LpStatus.Infeasible, fun _ => 0)

/-- A minimal-network reducer that returns its input unchanged. -/
def gmnId : STN → Option STN := fun s => some s

/-- A minimal-network reducer that always reports inconsistency. -/
def gmnNone : STN → Option STN := fun _ => none

/-- The empty network. -/
def stn0 : STN := { nodes := [], edges := [], w := fun _ _ => 0, contingent := [] }

/-- A requirement-only network: three nodes, one edge between the two
non-reference nodes, all weights 5. -/
def stnB : STN :=
  { nodes := [0, 1, 2], edges := [(1, 2)], w := fun _ _ => 5, contingent := [] }

/-- A two-node network with one Gaussian contingent constraint. -/
def stnG : STN :=
  { nodes := [0, 1], edges := [(0, 1)], w := fun _ _ => 20,
    contingent := [((0, 1), Dist.gaussian 10 2)] }

/-- A two-node network with one uniform contingent constraint. -/
def stnU : STN :=
  { nodes := [0, 1], edges := [(0, 1)], w := fun _ _ => 20,
    contingent := [((0, 1), Dist.uniform 8 12)] }

/-- The all-unset variable-attribute state. -/
def dom0 : Var → VarDom := fun _ => { lowBound := none, upBound := none }

/-- The all-zero valuation. -/
def vals0 : Var → ℚ := fun _ => 0

/-
Helper lemmas about the LP model builder.
-/

theorem setDom_same (d : Var → VarDom) (v : Var) (vd : VarDom) :
    setDom d v vd v = vd := by
  simp [setDom]

theorem setDom_other (d : Var → VarDom) (v : Var) (vd : VarDom) (x : Var)
    (h : x ≠ v) : setDom d v vd x = d x := by
  simp [setDom, h]

theorem nodeStep_dom_bnd (stn : STN) (s : LPSetup) (i' i : Node) (sg : Sign) :
    (nodeStep stn s i').dom (Var.bnd i sg) =
      if i = i' then staticDom stn i' else s.dom (Var.bnd i sg) := by
  cases sg <;> by_cases h : i = i' <;>
    simp [nodeStep, setDom, h]

theorem nodeStep_dom_dlt (stn : STN) (s : LPSetup) (i' a b : Node) :
    (nodeStep stn s i').dom (Var.dlt a b) = s.dom (Var.dlt a b) := by
  simp [nodeStep, setDom]

theorem edgeStep_dom_bnd (stn : STN) (dec : Bool) (s : LPSetup) (e : Node × Node)
    (i : Node) (sg : Sign) :
    (edgeStep stn dec s e).dom (Var.bnd i sg) = s.dom (Var.bnd i sg) := by
  rcases e with ⟨a, b⟩
  dsimp only [edgeStep]
  split
  · simp [setDom]
  · split <;> rfl

theorem foldl_nodeStep_dom (stn : STN) (l : List Node) (s : LPSetup) (i : Node)
    (sg : Sign) (h : i ∈ l ∨ s.dom (Var.bnd i sg) = staticDom stn i) :
    (l.foldl (nodeStep stn) s).dom (Var.bnd i sg) = staticDom stn i := by
  induction l generalizing s with
  | nil =>
    rcases h with h | h
    · cases h
    · simpa using h
  | cons a t ih =>
    refine ih (nodeStep stn s a) ?_
    rcases h with h | h
    · rcases List.mem_cons.mp h with rfl | ht
      · right
        rw [nodeStep_dom_bnd]
        simp
      · left
        exact ht
    · right
      rw [nodeStep_dom_bnd]
      split
      · next heq => rw [heq]
      · exact h

theorem foldl_edgeStep_dom_bnd (stn : STN) (dec : Bool) (l : List (Node × Node))
    (s : LPSetup) (i : Node) (sg : Sign) :
    (l.foldl (edgeStep stn dec) s).dom (Var.bnd i sg) = s.dom (Var.bnd i sg) := by
  induction l generalizing s with
  | nil => rfl
  | cons e t ih => rw [List.foldl_cons, ih, edgeStep_dom_bnd]

theorem setUpLP_dom_bnd (stn : STN) (dec : Bool) (i : Node) (sg : Sign)
    (h : i ∈ stn.nodes) :
    (setUpLP stn dec).dom (Var.bnd i sg) = staticDom stn i := by
  unfold setUpLP
  rw [foldl_edgeStep_dom_bnd]
  exact foldl_nodeStep_dom stn stn.nodes _ i sg (Or.inl h)

theorem nodeStep_bounds (stn : STN) (s : LPSetup) (i : Node) :
    (nodeStep stn s i).bounds = s.bounds ++ [(i, Sign.plus), (i, Sign.minus)] := rfl

theorem edgeStep_bounds (stn : STN) (dec : Bool) (s : LPSetup) (e : Node × Node) :
    (edgeStep stn dec s e).bounds = s.bounds := by
  rcases e with ⟨a, b⟩
  dsimp only [edgeStep]
  split
  · rfl
  · split <;> rfl

theorem foldl_edgeStep_bounds (stn : STN) (dec : Bool) (l : List (Node × Node))
    (s : LPSetup) : (l.foldl (edgeStep stn dec) s).bounds = s.bounds := by
  induction l generalizing s with
  | nil => rfl
  | cons e t ih => rw [List.foldl_cons, ih, edgeStep_bounds]

theorem foldl_nodeStep_bounds_mem (stn : STN) (l : List Node) (s : LPSetup)
    (i : Node) (sg : Sign) (h : i ∈ l ∨ (i, sg) ∈ s.bounds) :
    (i, sg) ∈ (l.foldl (nodeStep stn) s).bounds := by
  induction l generalizing s with
  | nil =>
    rcases h with h | h
    · cases h
    · simpa using h
  | cons a t ih =>
    refine ih (nodeStep stn s a) ?_
    rcases h with h | h
    · rcases List.mem_cons.mp h with rfl | ht
      · right
        rw [nodeStep_bounds]
        cases sg <;> simp
      · left
        exact ht
    · right
      rw [nodeStep_bounds]
      exact List.mem_append_left _ h

theorem setUpLP_bounds_mem (stn : STN) (dec : Bool) (i : Node) (sg : Sign)
    (h : i ∈ stn.nodes) : (i, sg) ∈ (setUpLP stn dec).bounds := by
  unfold setUpLP
  rw [foldl_edgeStep_bounds]
  exact foldl_nodeStep_bounds_mem stn stn.nodes _ i sg (Or.inl h)

theorem nodeStep_constraints (stn : STN) (s : LPSetup) (i : Node) :
    (nodeStep stn s i).prob.constraints = s.prob.constraints ++ [geCon i] := rfl

theorem edgeStep_constraints_mono (stn : STN) (dec : Bool) (s : LPSetup)
    (e : Node × Node) (c : LinCon) (h : c ∈ s.prob.constraints) :
    c ∈ (edgeStep stn dec s e).prob.constraints := by
  rcases e with ⟨a, b⟩
  dsimp only [edgeStep]
  split
  · exact h
  · split
    · simp only [addConstraint, List.mem_append]
      left
      left
      exact h
    · exact h

theorem foldl_edgeStep_constraints_mono (stn : STN) (dec : Bool)
    (l : List (Node × Node)) (s : LPSetup) (c : LinCon)
    (h : c ∈ s.prob.constraints) :
    c ∈ (l.foldl (edgeStep stn dec) s).prob.constraints := by
  induction l generalizing s with
  | nil => simpa using h
  | cons e t ih => exact ih _ (edgeStep_constraints_mono stn dec s e c h)

theorem foldl_nodeStep_geCon (stn : STN) (l : List Node) (s : LPSetup) (i : Node)
    (h : i ∈ l ∨ geCon i ∈ s.prob.constraints) :
    geCon i ∈ (l.foldl (nodeStep stn) s).prob.constraints := by
  induction l generalizing s with
  | nil =>
    rcases h with h | h
    · cases h
    · simpa using h
  | cons a t ih =>
    refine ih (nodeStep stn s a) ?_
    rcases h with h | h
    · rcases List.mem_cons.mp h with rfl | ht
      · right
        rw [nodeStep_constraints]
        simp
      · left
        exact ht
    · right
      rw [nodeStep_constraints]
      exact List.mem_append_left _ h

theorem setUpLP_geCon (stn : STN) (dec : Bool) (i : Node) (h : i ∈ stn.nodes) :
    geCon i ∈ (setUpLP stn dec).prob.constraints := by
  unfold setUpLP
  exact foldl_edgeStep_constraints_mono stn dec stn.edges _ (geCon i)
    (foldl_nodeStep_geCon stn stn.nodes _ i (Or.inl h))

theorem edgeStep_req_char (stn : STN) (dec : Bool) (s : LPSetup) (i j : Node)
    (h : (i, j) ∉ contingentKeys stn) :
    (edgeStep stn dec s (i, j)).prob.constraints =
      if i ≠ 0 ∧ j ≠ 0 ∧ (j, i) ∉ contingentKeys stn ∧ dec = false
      then s.prob.constraints ++ [reqCon1 stn i j, reqCon2 stn i j]
      else s.prob.constraints := by
  dsimp only [edgeStep]
  rw [if_neg h]
  split
  · simp [addConstraint]
  · rfl

/--
C5: for every input network, `setUpLP` creates per node i the two bound
variables with static interval [-w(i,0), w(0,i)] and the constraint
bounds plus >= bounds minus; and for every non-contingent edge (i,j), the
edge pass adds the two requirement constraints exactly when i and j are
both non-reference, the reverse edge is not contingent and `decouple` is
false.  The constraint semantics match the spec inequalities.
-/
theorem c5_setUpLP_structure (stn : STN) (decouple : Bool) :
    (∀ i, i ∈ stn.nodes →
      (setUpLP stn decouple).dom (Var.bnd i Sign.plus) = staticDom stn i ∧
      (setUpLP stn decouple).dom (Var.bnd i Sign.minus) = staticDom stn i ∧
      (i, Sign.plus) ∈ (setUpLP stn decouple).bounds ∧
      (i, Sign.minus) ∈ (setUpLP stn decouple).bounds ∧
      geCon i ∈ (setUpLP stn decouple).prob.constraints) ∧
    (∀ i : Node, ∀ f : Var → ℚ,
      ((geCon i).holds f ↔ f (Var.bnd i Sign.minus) ≤ f (Var.bnd i Sign.plus))) ∧
    (∀ s : LPSetup, ∀ i j : Node, (i, j) ∉ contingentKeys stn →
      (edgeStep stn decouple s (i, j)).prob.constraints =
        if i ≠ 0 ∧ j ≠ 0 ∧ (j, i) ∉ contingentKeys stn ∧ decouple = false
        then s.prob.constraints ++ [reqCon1 stn i j, reqCon2 stn i j]
        else s.prob.constraints) ∧
    (∀ i j : Node, ∀ f : Var → ℚ,
      ((reqCon1 stn i j).holds f ↔
        f (Var.bnd j Sign.plus) - f (Var.bnd i Sign.minus) ≤ stn.get_edge_weight i j) ∧
      ((reqCon2 stn i j).holds f ↔
        f (Var.bnd i Sign.plus) - f (Var.bnd j Sign.minus) ≤ stn.get_edge_weight j i)) := by
  refine ⟨fun i hi => ⟨?_, ?_, ?_, ?_, ?_⟩, fun i f => ?_, fun s i j h => ?_, fun i j f => ⟨?_, ?_⟩⟩
  · exact setUpLP_dom_bnd stn decouple i Sign.plus hi
  · exact setUpLP_dom_bnd stn decouple i Sign.minus hi
  · exact setUpLP_bounds_mem stn decouple i Sign.plus hi
  · exact setUpLP_bounds_mem stn decouple i Sign.minus hi
  · exact setUpLP_geCon stn decouple i hi
  · simp only [LinCon.holds, geCon, evalTerms, List.map_cons, List.map_nil,
      List.sum_cons, List.sum_nil]
    constructor <;> intro h <;> linarith
  · exact edgeStep_req_char stn decouple s i j h
  · simp only [LinCon.holds, reqCon1, evalTerms, List.map_cons, List.map_nil,
      List.sum_cons, List.sum_nil]
    constructor <;> intro h <;> linarith
  · simp only [LinCon.holds, reqCon2, evalTerms, List.map_cons, List.map_nil,
      List.sum_cons, List.sum_nil]
    constructor <;> intro h <;> linarith

/--
Witness for C5 at the concrete network `stnB` (nodes 0, 1, 2; the single
requirement edge (1, 2); all weights 5) with decouple false: node 1 receives
its two bound variables with interval [-5, 5] and its ordering constraint,
and the edge pass on (1, 2) adds exactly the two requirement constraints.
-/
theorem c5_witness :
    (setUpLP stnB false).dom (Var.bnd 1 Sign.plus) = staticDom stnB 1 ∧
    (1, Sign.plus) ∈ (setUpLP stnB false).bounds ∧
    geCon 1 ∈ (setUpLP stnB false).prob.constraints ∧
    (edgeStep stnB false (setUpLP stnB false) (1, 2)).prob.constraints =
      (setUpLP stnB false).prob.constraints ++ [reqCon1 stnB 1 2, reqCon2 stnB 1 2] := by
  have h := c5_setUpLP_structure stnB false
  have h1 := h.1 1 (by decide)
  refine ⟨h1.1, h1.2.2.1, h1.2.2.2.2, ?_⟩
  have h2 := h.2.2.1 (setUpLP stnB false) 1 2 (by decide)
  rw [h2, if_pos (by decide)]

/-
Helper lemmas about the risk-constraint injector.
-/

theorem contingentStep_eq (invcdf_norm : InvNorm) (alpha : ℚ)
    (acc : LpProblem × (Var → VarDom)) (e : (Node × Node) × Dist) :
    contingentStep invcdf_norm alpha acc e =
      contingentFinish e.1.1 e.1.2 (pFwd invcdf_norm e.2 alpha)
        (pBwd invcdf_norm e.2 alpha) (limitFwd invcdf_norm e.2)
        (limitBwd invcdf_norm e.2) acc := by
  rcases e with ⟨⟨i, j⟩, d⟩
  cases d <;> rfl

theorem contingentFinish_fst (i j : Node) (pij pji lij lji : ℚ)
    (acc : LpProblem × (Var → VarDom)) :
    (contingentFinish i j pij pji lij lji acc).1 =
      addConstraint (cons2Con i j pji) (addConstraint (cons1Con i j pij) acc.1) := rfl

theorem contingentFinish_snd (i j : Node) (pij pji lij lji : ℚ)
    (acc : LpProblem × (Var → VarDom)) :
    (contingentFinish i j pij pji lij lji acc).2 =
      setDom (setDom acc.2 (Var.dlt i j)
          { lowBound := (acc.2 (Var.dlt i j)).lowBound, upBound := some (lij - pij) })
        (Var.dlt i j)
        { lowBound := (acc.2 (Var.dlt i j)).lowBound, upBound := some (lji - pji) } := by
  unfold contingentFinish
  simp [setDom]

theorem contingentFinish_snd_self (i j : Node) (pij pji lij lji : ℚ)
    (acc : LpProblem × (Var → VarDom)) :
    (contingentFinish i j pij pji lij lji acc).2 (Var.dlt i j) =
      { lowBound := (acc.2 (Var.dlt i j)).lowBound, upBound := some (lji - pji) } := by
  rw [contingentFinish_snd, setDom_same]

theorem contingentFinish_snd_other (i j : Node) (pij pji lij lji : ℚ)
    (acc : LpProblem × (Var → VarDom)) (v : Var) (h : v ≠ Var.dlt i j) :
    (contingentFinish i j pij pji lij lji acc).2 v = acc.2 v := by
  rw [contingentFinish_snd, setDom_other _ _ _ _ h, setDom_other _ _ _ _ h]

theorem foldl_contingentStep_constraints (invcdf_norm : InvNorm) (alpha : ℚ)
    (l : List ((Node × Node) × Dist)) (prob : LpProblem) (dom : Var → VarDom) :
    (l.foldl (contingentStep invcdf_norm alpha) (prob, dom)).1.constraints =
      prob.constraints ++ (l.map (fun e =>
        [cons1Con e.1.1 e.1.2 (pFwd invcdf_norm e.2 alpha),
         cons2Con e.1.1 e.1.2 (pBwd invcdf_norm e.2 alpha)])).flatten := by
  induction l generalizing prob dom with
  | nil => simp
  | cons e t ih =>
    rw [List.foldl_cons, contingentStep_eq]
    have hstep : contingentFinish e.1.1 e.1.2 (pFwd invcdf_norm e.2 alpha)
        (pBwd invcdf_norm e.2 alpha) (limitFwd invcdf_norm e.2)
        (limitBwd invcdf_norm e.2) (prob, dom) =
        ((contingentFinish e.1.1 e.1.2 (pFwd invcdf_norm e.2 alpha)
          (pBwd invcdf_norm e.2 alpha) (limitFwd invcdf_norm e.2)
          (limitBwd invcdf_norm e.2) (prob, dom)).1,
         (contingentFinish e.1.1 e.1.2 (pFwd invcdf_norm e.2 alpha)
          (pBwd invcdf_norm e.2 alpha) (limitFwd invcdf_norm e.2)
          (limitBwd invcdf_norm e.2) (prob, dom)).2) := rfl
    rw [hstep, ih, contingentFinish_fst]
    simp [addConstraint]

theorem foldl_contingentStep_maximize (invcdf_norm : InvNorm) (alpha : ℚ)
    (l : List ((Node × Node) × Dist)) (prob : LpProblem) (dom : Var → VarDom) :
    (l.foldl (contingentStep invcdf_norm alpha) (prob, dom)).1.maximize =
      prob.maximize := by
  induction l generalizing prob dom with
  | nil => rfl
  | cons e t ih =>
    rw [List.foldl_cons, contingentStep_eq]
    have hstep : contingentFinish e.1.1 e.1.2 (pFwd invcdf_norm e.2 alpha)
        (pBwd invcdf_norm e.2 alpha) (limitFwd invcdf_norm e.2)
        (limitBwd invcdf_norm e.2) (prob, dom) =
        ((contingentFinish e.1.1 e.1.2 (pFwd invcdf_norm e.2 alpha)
          (pBwd invcdf_norm e.2 alpha) (limitFwd invcdf_norm e.2)
          (limitBwd invcdf_norm e.2) (prob, dom)).1,
         (contingentFinish e.1.1 e.1.2 (pFwd invcdf_norm e.2 alpha)
          (pBwd invcdf_norm e.2 alpha) (limitFwd invcdf_norm e.2)
          (limitBwd invcdf_norm e.2) (prob, dom)).2) := rfl
    rw [hstep, ih, contingentFinish_fst]
    rfl

theorem foldl_contingentStep_dom_other (invcdf_norm : InvNorm) (alpha : ℚ)
    (l : List ((Node × Node) × Dist)) (prob : LpProblem) (dom : Var → VarDom)
    (v : Var) (h : ∀ e ∈ l, v ≠ Var.dlt e.1.1 e.1.2) :
    (l.foldl (contingentStep invcdf_norm alpha) (prob, dom)).2 v = dom v := by
  induction l generalizing prob dom with
  | nil => rfl
  | cons e t ih =>
    rw [List.foldl_cons, contingentStep_eq]
    have hstep : contingentFinish e.1.1 e.1.2 (pFwd invcdf_norm e.2 alpha)
        (pBwd invcdf_norm e.2 alpha) (limitFwd invcdf_norm e.2)
        (limitBwd invcdf_norm e.2) (prob, dom) =
        ((contingentFinish e.1.1 e.1.2 (pFwd invcdf_norm e.2 alpha)
          (pBwd invcdf_norm e.2 alpha) (limitFwd invcdf_norm e.2)
          (limitBwd invcdf_norm e.2) (prob, dom)).1,
         (contingentFinish e.1.1 e.1.2 (pFwd invcdf_norm e.2 alpha)
          (pBwd invcdf_norm e.2 alpha) (limitFwd invcdf_norm e.2)
          (limitBwd invcdf_norm e.2) (prob, dom)).2) := rfl
    rw [hstep]
    rw [ih _ _ (fun f hf => h f (List.mem_cons_of_mem e hf))]
    exact contingentFinish_snd_other _ _ _ _ _ _ _ _ (h e (List.mem_cons_self e t))

theorem foldl_contingentStep_dom_self (invcdf_norm : InvNorm) (alpha : ℚ)
    (l : List ((Node × Node) × Dist)) (prob : LpProblem) (dom : Var → VarDom)
    (hnd : (l.map Prod.fst).Nodup) (e : (Node × Node) × Dist) (he : e ∈ l) :
    (l.foldl (contingentStep invcdf_norm alpha) (prob, dom)).2 (Var.dlt e.1.1 e.1.2) =
      { lowBound := (dom (Var.dlt e.1.1 e.1.2)).lowBound,
        upBound := some (limitBwd invcdf_norm e.2 - pBwd invcdf_norm e.2 alpha) } := by
  induction l generalizing prob dom with
  | nil => cases he
  | cons f t ih =>
    have hnd' : (t.map Prod.fst).Nodup := (List.nodup_cons.mp hnd).2
    have hfk : f.1 ∉ t.map Prod.fst := (List.nodup_cons.mp hnd).1
    rw [List.foldl_cons, contingentStep_eq]
    have hstep : contingentFinish f.1.1 f.1.2 (pFwd invcdf_norm f.2 alpha)
        (pBwd invcdf_norm f.2 alpha) (limitFwd invcdf_norm f.2)
        (limitBwd invcdf_norm f.2) (prob, dom) =
        ((contingentFinish f.1.1 f.1.2 (pFwd invcdf_norm f.2 alpha)
          (pBwd invcdf_norm f.2 alpha) (limitFwd invcdf_norm f.2)
          (limitBwd invcdf_norm f.2) (prob, dom)).1,
         (contingentFinish f.1.1 f.1.2 (pFwd invcdf_norm f.2 alpha)
          (pBwd invcdf_norm f.2 alpha) (limitFwd invcdf_norm f.2)
          (limitBwd invcdf_norm f.2) (prob, dom)).2) := rfl
    rw [hstep]
    rcases List.mem_cons.mp he with rfl | het
    · rw [foldl_contingentStep_dom_other]
      · rw [contingentFinish_snd_self]
      · intro g hg hv
        apply hfk
        have h12 : e.1.1 = g.1.1 ∧ e.1.2 = g.1.2 := by
          simpa [Var.dlt.injEq] using hv
        have hge : g.1 = e.1 := Prod.ext_iff.mpr ⟨h12.1.symm, h12.2.symm⟩
        rw [← hge]
        exact List.mem_map_of_mem Prod.fst hg
    · rw [ih _ _ hnd' het]
      rw [contingentFinish_snd_other]
      intro hv
      apply hfk
      have h12 : e.1.1 = f.1.1 ∧ e.1.2 = f.1.2 := by
        simpa [Var.dlt.injEq] using hv
      have hfe : f.1 = e.1 := Prod.ext_iff.mpr ⟨h12.1.symm, h12.2.symm⟩
      rw [hfe]
      exact List.mem_map_of_mem Prod.fst het

theorem foldl_nodeStep_dom_dlt (stn : STN) (l : List Node) (s : LPSetup)
    (a b : Node) :
    (l.foldl (nodeStep stn) s).dom (Var.dlt a b) = s.dom (Var.dlt a b) := by
  induction l generalizing s with
  | nil => rfl
  | cons x t ih => rw [List.foldl_cons, ih, nodeStep_dom_dlt]

theorem edgeStep_dom_dlt_pres (stn : STN) (dec : Bool) (s : LPSetup)
    (e : Node × Node) (a b : Node)
    (h : s.dom (Var.dlt a b) = { lowBound := some 0, upBound := none }) :
    (edgeStep stn dec s e).dom (Var.dlt a b) =
      { lowBound := some 0, upBound := none } := by
  rcases e with ⟨x, y⟩
  dsimp only [edgeStep]
  split
  · simp only [setDom]
    split_ifs <;> first | rfl | exact h
  · split <;> exact h

theorem edgeStep_dom_dlt_set (stn : STN) (dec : Bool) (s : LPSetup) (i j : Node)
    (h : (i, j) ∈ contingentKeys stn) :
    (edgeStep stn dec s (i, j)).dom (Var.dlt i j) =
      { lowBound := some 0, upBound := none } ∧
    (edgeStep stn dec s (i, j)).dom (Var.dlt j i) =
      { lowBound := some 0, upBound := none } := by
  dsimp only [edgeStep]
  rw [if_pos h]
  constructor <;>
  · simp only [setDom]
    split_ifs <;> simp_all

theorem foldl_edgeStep_dom_dlt (stn : STN) (dec : Bool) (l : List (Node × Node))
    (s : LPSetup) (i j : Node)
    (h : ((i, j) ∈ l ∧ (i, j) ∈ contingentKeys stn) ∨
      (s.dom (Var.dlt i j) = { lowBound := some 0, upBound := none } ∧
       s.dom (Var.dlt j i) = { lowBound := some 0, upBound := none })) :
    (l.foldl (edgeStep stn dec) s).dom (Var.dlt i j) =
      { lowBound := some 0, upBound := none } ∧
    (l.foldl (edgeStep stn dec) s).dom (Var.dlt j i) =
      { lowBound := some 0, upBound := none } := by
  induction l generalizing s with
  | nil =>
    rcases h with ⟨h1, _⟩ | h
    · cases h1
    · simpa using h
  | cons e t ih =>
    refine ih (edgeStep stn dec s e) ?_
    rcases h with ⟨h1, hk⟩ | ⟨h1, h2⟩
    · rcases List.mem_cons.mp h1 with rfl | ht
      · right
        exact edgeStep_dom_dlt_set stn dec s i j hk
      · left
        exact ⟨ht, hk⟩
    · right
      exact ⟨edgeStep_dom_dlt_pres stn dec s e i j h1,
        edgeStep_dom_dlt_pres stn dec s e j i h2⟩

theorem setUpLP_dom_dlt (stn : STN) (dec : Bool) (i j : Node)
    (hmem : (i, j) ∈ stn.edges) (hk : (i, j) ∈ contingentKeys stn) :
    (setUpLP stn dec).dom (Var.dlt i j) = { lowBound := some 0, upBound := none } ∧
    (setUpLP stn dec).dom (Var.dlt j i) = { lowBound := some 0, upBound := none } := by
  unfold setUpLP
  exact foldl_edgeStep_dom_dlt stn dec stn.edges _ i j (Or.inl ⟨hmem, hk⟩)

theorem not_key_ne_dlt (stn : STN) (j i : Node) (h : (j, i) ∉ contingentKeys stn) :
    ∀ e ∈ stn.contingent, Var.dlt j i ≠ Var.dlt e.1.1 e.1.2 := by
  intro e he hv
  apply h
  have h12 : j = e.1.1 ∧ i = e.1.2 := by simpa [Var.dlt.injEq] using hv
  have hji : (j, i) = e.1 := Prod.ext_iff.mpr ⟨h12.1, h12.2⟩
  rw [hji]
  exact List.mem_map_of_mem Prod.fst he

theorem srea_LP_prepare_dom_other (invcdf_norm : InvNorm) (stn : STN) (alpha : ℚ)
    (deltaKeys : List (Node × Node)) (prob : LpProblem) (dom : Var → VarDom)
    (v : Var) (h : ∀ e ∈ stn.contingent, v ≠ Var.dlt e.1.1 e.1.2) :
    (srea_LP_prepare invcdf_norm stn alpha deltaKeys prob dom).2 v = dom v := by
  unfold srea_LP_prepare
  exact foldl_contingentStep_dom_other invcdf_norm alpha stn.contingent prob dom v h

theorem srea_LP_core_dom (o : Oracle) (invcdf_norm : InvNorm) (stn : STN)
    (alpha : ℚ) (dec : Bool) (pc : Option ProbC) (v : Var)
    (h : ∀ e ∈ stn.contingent, v ≠ Var.dlt e.1.1 e.1.2) :
    (srea_LP_core o invcdf_norm stn alpha dec pc).2.1 v =
      (resolvePC stn dec pc).dom v := by
  unfold srea_LP_core
  dsimp only
  exact srea_LP_prepare_dom_other invcdf_norm stn (round3 alpha)
    (resolvePC stn dec pc).deltas (resolvePC stn dec pc).prob
    (resolvePC stn dec pc).dom v h

/--
C10: the backward delta variable of a contingent pair (i,j) is created by
`setUpLP` with lowBound 0 and no upBound, and never receives an upper bound:
the injector updates only the forward delta variable of each contingent key,
so a backward key that is not itself a contingent key keeps its unbounded
upper end through every trial of the loop.
-/
theorem c10_backward_delta_unbounded :
    (∀ stn : STN, ∀ dec : Bool, ∀ i j : Node,
      (i, j) ∈ stn.edges → (i, j) ∈ contingentKeys stn →
      (setUpLP stn dec).dom (Var.dlt i j) =
        { lowBound := some 0, upBound := none } ∧
      (setUpLP stn dec).dom (Var.dlt j i) =
        { lowBound := some 0, upBound := none }) ∧
    (∀ invcdf_norm : InvNorm, ∀ alpha : ℚ, ∀ stn : STN,
      ∀ dk : List (Node × Node), ∀ prob : LpProblem, ∀ dom : Var → VarDom,
      ∀ j i : Node, (j, i) ∉ contingentKeys stn →
      (srea_LP_prepare invcdf_norm stn alpha dk prob dom).2 (Var.dlt j i) =
        dom (Var.dlt j i)) ∧
    (∀ o : Oracle, ∀ invcdf_norm : InvNorm, ∀ stn : STN, ∀ dec : Bool,
      ∀ bk : List (Node × Sign), ∀ dk : List (Node × Node),
      ∀ probBase : LpProblem, ∀ st : LoopState, ∀ j i : Node,
      (j, i) ∉ contingentKeys stn →
      (sreaIter o invcdf_norm stn dec bk dk probBase st).1.dom (Var.dlt j i) =
        st.dom (Var.dlt j i)) := by
  refine ⟨fun stn dec i j hmem hk => setUpLP_dom_dlt stn dec i j hmem hk,
    fun invcdf_norm alpha stn dk prob dom j i h =>
      srea_LP_prepare_dom_other invcdf_norm stn alpha dk prob dom _
        (not_key_ne_dlt stn j i h),
    fun o invcdf_norm stn dec bk dk probBase st j i h => ?_⟩
  have hcore := srea_LP_core_dom o invcdf_norm stn
    ((((st.upper + st.lower) / 2 : ℤ) : ℚ) / 1000) dec
    (some { bounds := bk, deltas := dk, prob := probBase,
            dom := st.dom, vals := st.vals })
    (Var.dlt j i) (not_key_ne_dlt stn j i h)
  unfold sreaIter
  dsimp only
  split <;> dsimp only <;> simpa [resolvePC] using hcore

/--
Witness for C10 at the concrete network `stnG` (single Gaussian contingent
edge (0,1)): the backward delta variable delta(1,0) is created with
lowBound 0 and no upBound by the builder, and the injector leaves it
untouched.
-/
theorem c10_witness :
    (setUpLP stnG false).dom (Var.dlt 1 0) =
      { lowBound := some 0, upBound := none } ∧
    (srea_LP_prepare icn0 stnG 0 [] emptyProb
      (setUpLP stnG false).dom).2 (Var.dlt 1 0) =
      (setUpLP stnG false).dom (Var.dlt 1 0) := by
  have h := c10_backward_delta_unbounded
  exact ⟨(h.1 stnG false 0 1 (by decide) (by decide)).2,
    h.2.1 icn0 0 stnG [] emptyProb _ 1 0 (by decide)⟩

/--
C4: per contingent constraint the injector computes the fixed extreme-tail
limits — quantile(D, 0.997) and -quantile(D, 0.003) for a Gaussian,
quantile(D, 0) and -quantile(D, 1) (the exact support bounds) for a uniform
distribution — and then assigns the forward delta variable's upBound twice
in sequence, first limit_ij - p_ij then limit_ji - p_ji, so that after the
injector runs the surviving upper bound is limit_ji - p_ji.
-/
theorem c4_delta_upbound_overwrite :
    (∀ invcdf_norm : InvNorm, ∀ alpha : ℚ, ∀ acc, ∀ i j : Node, ∀ mu sigma : ℚ,
      contingentStep invcdf_norm alpha acc ((i, j), Dist.gaussian mu sigma) =
        contingentFinish i j (pFwd invcdf_norm (Dist.gaussian mu sigma) alpha)
          (pBwd invcdf_norm (Dist.gaussian mu sigma) alpha)
          (quantile invcdf_norm (Dist.gaussian mu sigma) (997/1000))
          (-(quantile invcdf_norm (Dist.gaussian mu sigma) (3/1000))) acc) ∧
    (∀ invcdf_norm : InvNorm, ∀ alpha : ℚ, ∀ acc, ∀ i j : Node, ∀ lb ub : ℚ,
      contingentStep invcdf_norm alpha acc ((i, j), Dist.uniform lb ub) =
        contingentFinish i j (pFwd invcdf_norm (Dist.uniform lb ub) alpha)
          (pBwd invcdf_norm (Dist.uniform lb ub) alpha)
          (quantile invcdf_norm (Dist.uniform lb ub) 0)
          (-(quantile invcdf_norm (Dist.uniform lb ub) 1)) acc) ∧
    (∀ invcdf_norm : InvNorm, ∀ lb ub : ℚ,
      quantile invcdf_norm (Dist.uniform lb ub) 0 = lb ∧
      quantile invcdf_norm (Dist.uniform lb ub) 1 = ub) ∧
    (∀ i j : Node, ∀ pij pji lij lji : ℚ, ∀ acc,
      (contingentFinish i j pij pji lij lji acc).2 =
        setDom (setDom acc.2 (Var.dlt i j)
            { lowBound := (acc.2 (Var.dlt i j)).lowBound,
              upBound := some (lij - pij) })
          (Var.dlt i j)
          { lowBound := (acc.2 (Var.dlt i j)).lowBound,
            upBound := some (lji - pji) } ∧
      (contingentFinish i j pij pji lij lji acc).2 (Var.dlt i j) =
        { lowBound := (acc.2 (Var.dlt i j)).lowBound,
          upBound := some (lji - pji) }) ∧
    (∀ invcdf_norm : InvNorm, ∀ alpha : ℚ, ∀ stn : STN,
      ∀ dk : List (Node × Node), ∀ prob : LpProblem, ∀ dom : Var → VarDom,
      (contingentKeys stn).Nodup → ∀ e ∈ stn.contingent,
      (srea_LP_prepare invcdf_norm stn alpha dk prob dom).2 (Var.dlt e.1.1 e.1.2) =
        { lowBound := (dom (Var.dlt e.1.1 e.1.2)).lowBound,
          upBound := some (limitBwd invcdf_norm e.2 - pBwd invcdf_norm e.2 alpha) }) := by
  refine ⟨fun invcdf_norm alpha acc i j mu sigma => rfl,
    fun invcdf_norm alpha acc i j lb ub => rfl,
    fun invcdf_norm lb ub => ⟨?_, ?_⟩,
    fun i j pij pji lij lji acc =>
      ⟨contingentFinish_snd i j pij pji lij lji acc,
       contingentFinish_snd_self i j pij pji lij lji acc⟩,
    fun invcdf_norm alpha stn dk prob dom hnd e he => ?_⟩
  · simp [quantile, invcdf_uniform]
  · simp [quantile, invcdf_uniform]
  · unfold srea_LP_prepare
    exact foldl_contingentStep_dom_self invcdf_norm alpha stn.contingent prob dom hnd e he

/--
Witness for C4 at the concrete uniform network `stnU` (contingent edge (0,1)
with Uniform(8,12)): the extreme-tail limits are the support bounds 8 and
-12, and after the injector runs at alpha 0 the forward delta upBound is
the surviving second assignment -12 - (-8) = -4.
-/
theorem c4_witness :
    quantile icn0 (Dist.uniform 8 12) 0 = 8 ∧
    quantile icn0 (Dist.uniform 8 12) 1 = 12 ∧
    (srea_LP_prepare icn0 stnU 0 [] emptyProb
      (setUpLP stnU false).dom).2 (Var.dlt 0 1) =
      { lowBound := ((setUpLP stnU false).dom (Var.dlt 0 1)).lowBound,
        upBound := some (limitBwd icn0 (Dist.uniform 8 12) -
          pBwd icn0 (Dist.uniform 8 12) 0) } := by
  have h := c4_delta_upbound_overwrite
  refine ⟨(h.2.2.1 icn0 8 12).1, (h.2.2.1 icn0 8 12).2, ?_⟩
  exact h.2.2.2.2 icn0 0 stnU [] emptyProb _ (by decide) ((0, 1), Dist.uniform 8 12)
    (by decide)

theorem round3_half_thousandth : round3 (1/2000) = 0 := by
  unfold round3 roundHalfEven
  rw [show ((1:ℚ)/2000 * 1000) = 1/2 by norm_num]
  rw [show Int.floor ((1:ℚ)/2) = 0 by rw [Int.floor_eq_iff]; norm_num]
  norm_num

/--
Counterexample to C3 as stated: the injector does not use the risk level it
was handed — it first rounds it to three decimals (srea.py line 199).  At
alpha = 1/2000 with the identity quantile provider and the single-Gaussian
network `stnG`, the equality constraint actually added carries the bound
quantile(D, 1 - round3(alpha)/2) = 1, while the claim demands
quantile(D, 1 - alpha/2) = 3999/4000.
-/
theorem c3_cex :
    (srea_LP_prepare icn0 stnG (round3 (1/2000)) [] emptyProb dom0).1.constraints =
      [cons1Con 0 1 1, cons2Con 0 1 0] ∧
    quantile icn0 (Dist.gaussian 10 2) (1 - (1/2000) * (1/2)) ≠ (cons1Con 0 1 1).rhs := by
  rw [round3_half_thousandth]
  constructor
  · norm_num [srea_LP_prepare, stnG, contingentStep, contingentFinish,
      addConstraint, emptyProb, cons1Con, cons2Con, icn0]
  · norm_num [quantile, icn0, cons1Con]

/--
C3 amended: for every contingent constraint (i,j) with distribution D, the
injector computes — from the rounded risk level alphaR = round3(alpha), a
no-op for every alpha the calibrator passes — the bounds
p_ij = quantile(D, 1 - alphaR/2) and p_ji = -quantile(D, alphaR/2), adds
exactly the two equality constraints
bounds[j,'+'] - bounds[i,'+'] == p_ij + delta[(i,j)] and
bounds[j,'-'] - bounds[i,'-'] == -p_ji - delta[(j,i)], and sets the
objective of the (maximization) problem to the sum of all delta variables.
The rounding is the identity on every grid value m/1000 the calibrator
passes.
-/
theorem c3_amended_injector (invcdf_norm : InvNorm) (stn : STN) (alpha : ℚ)
    (dk : List (Node × Node)) (prob : LpProblem) (dom : Var → VarDom) :
    ((srea_LP_prepare invcdf_norm stn (round3 alpha) dk prob dom).1.constraints =
      prob.constraints ++ (stn.contingent.map (fun e =>
        [cons1Con e.1.1 e.1.2 (pFwd invcdf_norm e.2 (round3 alpha)),
         cons2Con e.1.1 e.1.2 (pBwd invcdf_norm e.2 (round3 alpha))])).flatten) ∧
    (∀ d : Dist, ∀ a : ℚ,
      pFwd invcdf_norm d a = quantile invcdf_norm d (1 - a * (1/2)) ∧
      pBwd invcdf_norm d a = -(quantile invcdf_norm d (a * (1/2)))) ∧
    ((srea_LP_prepare invcdf_norm stn (round3 alpha) dk prob dom).1.objective =
      some (dk.map (fun e => Var.dlt e.1 e.2))) ∧
    ((srea_LP_prepare invcdf_norm stn (round3 alpha) dk prob dom).1.maximize =
      prob.maximize) ∧
    (∀ m : ℤ, round3 ((m : ℚ) / 1000) = (m : ℚ) / 1000) ∧
    (∀ i j : Node, ∀ p : ℚ, ∀ f : Var → ℚ,
      ((cons1Con i j p).holds f ↔
        f (Var.bnd j Sign.plus) - f (Var.bnd i Sign.plus) = p + f (Var.dlt i j)) ∧
      ((cons2Con i j p).holds f ↔
        f (Var.bnd j Sign.minus) - f (Var.bnd i Sign.minus) = -p - f (Var.dlt j i))) := by
  refine ⟨?_, fun d a => ⟨rfl, rfl⟩, rfl, ?_, ?_, fun i j p f => ⟨?_, ?_⟩⟩
  · unfold srea_LP_prepare
    exact foldl_contingentStep_constraints invcdf_norm (round3 alpha) stn.contingent prob dom
  · unfold srea_LP_prepare
    exact foldl_contingentStep_maximize invcdf_norm (round3 alpha) stn.contingent prob dom
  · intro m
    unfold round3 roundHalfEven
    rw [div_mul_cancel₀ _ (by norm_num : (1000:ℚ) ≠ 0)]
    rw [Int.floor_intCast]
    norm_num
  · simp only [LinCon.holds, cons1Con, evalTerms, List.map_cons, List.map_nil,
      List.sum_cons, List.sum_nil]
    constructor <;> intro h <;> linarith
  · simp only [LinCon.holds, cons2Con, evalTerms, List.map_cons, List.map_nil,
      List.sum_cons, List.sum_nil]
    constructor <;> intro h <;> linarith

/--
Witness for C3 amended at the concrete uniform network: the first
constraint conjunct and the objective conjunct instantiated.
-/
theorem c3_witness :
    ((srea_LP_prepare icn0 stnU (round3 0) [(0, 1)] emptyProb dom0).1.constraints =
      emptyProb.constraints ++ (stnU.contingent.map (fun e =>
        [cons1Con e.1.1 e.1.2 (pFwd icn0 e.2 (round3 0)),
         cons2Con e.1.1 e.1.2 (pBwd icn0 e.2 (round3 0))])).flatten) ∧
    ((srea_LP_prepare icn0 stnU (round3 0) [(0, 1)] emptyProb dom0).1.objective =
      some ([(0, 1)].map (fun e : Node × Node => Var.dlt e.1 e.2))) :=
  ⟨(c3_amended_injector icn0 stnU 0 [(0, 1)] emptyProb dom0).1,
   (c3_amended_injector icn0 stnU 0 [(0, 1)] emptyProb dom0).2.2.1⟩

/--
C6: `srea_LP` returns the bounds map exactly when the solver status is
Optimal and returns no value for every other status — solver-internal
failure and true infeasibility are not distinguished — and on an input that
is not of the Temporal-Network kind it raises the invalid-input error
uniformly in the oracle and container, before any LP is built or solved.
-/
theorem c6_status_and_type_guard (o : Oracle) (invcdf_norm : InvNorm) (alpha : ℚ)
    (dec : Bool) (pc : Option ProbC) :
    (srea_LP o invcdf_norm NetInput.other alpha dec pc =
      Except.error SreaError.typeError) ∧
    (∀ stn : STN,
      (srea_LP o invcdf_norm (NetInput.pstn stn) alpha dec pc =
        Except.ok (srea_LP_core o invcdf_norm stn alpha dec pc)) ∧
      ((o (preparedLP invcdf_norm stn alpha dec pc).1
          (preparedLP invcdf_norm stn alpha dec pc).2).1 = LpStatus.Optimal →
        (srea_LP_core o invcdf_norm stn alpha dec pc).1 =
          some (resolvePC stn dec pc).bounds) ∧
      ((o (preparedLP invcdf_norm stn alpha dec pc).1
          (preparedLP invcdf_norm stn alpha dec pc).2).1 ≠ LpStatus.Optimal →
        (srea_LP_core o invcdf_norm stn alpha dec pc).1 = none) ∧
      ((srea_LP_core o invcdf_norm stn alpha dec pc).1 ≠ none ↔
        (o (preparedLP invcdf_norm stn alpha dec pc).1
          (preparedLP invcdf_norm stn alpha dec pc).2).1 = LpStatus.Optimal)) := by
  refine ⟨rfl, fun stn => ?_⟩
  have hc : (srea_LP_core o invcdf_norm stn alpha dec pc).1 =
      (if (o (preparedLP invcdf_norm stn alpha dec pc).1
          (preparedLP invcdf_norm stn alpha dec pc).2).1 = LpStatus.Optimal
       then some (resolvePC stn dec pc).bounds else none) := rfl
  refine ⟨rfl, fun h => ?_, fun h => ?_, ?_⟩
  · rw [hc, if_pos h]
  · rw [hc, if_neg h]
  · constructor
    · intro hne
      by_contra h
      rw [hc, if_neg h] at hne
      exact hne rfl
    · intro h
      rw [hc, if_pos h]
      simp

/--
Witness for C6: the type guard fires on a non-PSTN input, the
always-Optimal oracle yields the bounds dict, and the always-Infeasible
oracle yields no value, at the empty network.
-/
theorem c6_witness :
    srea_LP oOpt icn0 NetInput.other 0 false none =
      Except.error SreaError.typeError ∧
    (srea_LP_core oOpt icn0 stn0 0 false none).1 =
      some (resolvePC stn0 false none).bounds ∧
    (srea_LP_core oInf icn0 stn0 0 false none).1 = none := by
  have h1 := c6_status_and_type_guard oOpt icn0 0 false none
  have h2 := c6_status_and_type_guard oInf icn0 0 false none
  exact ⟨h1.1, (h1.2 stn0).2.1 rfl, (h2.2 stn0).2.2.1 (by decide)⟩

/-
Unfolding equations, one per control path of the binary-search loop.
-/

theorem sreaLoopEq1 (o : Oracle) (icn : InvNorm) (stn : STN) (dec ra : Bool)
    (bk : List (Node × Sign)) (dk : List (Node × Node)) (pb : LpProblem)
    (st : LoopState) (h : 1 < st.upper - st.lower)
    (hle : (sreaIter o icn stn dec bk dk pb st).1.upper -
      (sreaIter o icn stn dec bk dk pb st).1.lower ≤ 1)
    (ar : ℚ × List (Node × Sign))
    (hr : (sreaIter o icn stn dec bk dk pb st).1.result = some ar) :
    sreaLoop o icn stn dec ra bk dk pb st =
      (SreaOut.ret (some (if ra then
          SreaRet.pair ar.1 (commitBounds stn ar.2 (sreaIter o icn stn dec bk dk pb st).1.vals)
        else
          SreaRet.net (commitBounds stn ar.2 (sreaIter o icn stn dec bk dk pb st).1.vals))),
       [(sreaIter o icn stn dec bk dk pb st).2]) := by
  rw [sreaLoop]
  rw [dif_pos h]
  dsimp only
  rw [if_pos hle, hr]

theorem sreaLoopEq2 (o : Oracle) (icn : InvNorm) (stn : STN) (dec ra : Bool)
    (bk : List (Node × Sign)) (dk : List (Node × Node)) (pb : LpProblem)
    (st : LoopState) (h : 1 < st.upper - st.lower)
    (hle : (sreaIter o icn stn dec bk dk pb st).1.upper -
      (sreaIter o icn stn dec bk dk pb st).1.lower ≤ 1)
    (hr : (sreaIter o icn stn dec bk dk pb st).1.result = none) :
    sreaLoop o icn stn dec ra bk dk pb st =
      ((sreaLoop o icn stn dec ra bk dk pb (sreaIter o icn stn dec bk dk pb st).1).1,
       (sreaIter o icn stn dec bk dk pb st).2 ::
         (sreaLoop o icn stn dec ra bk dk pb (sreaIter o icn stn dec bk dk pb st).1).2) := by
  rw [sreaLoop]
  rw [dif_pos h]
  dsimp only
  rw [if_pos hle, hr]

theorem sreaLoopEq3 (o : Oracle) (icn : InvNorm) (stn : STN) (dec ra : Bool)
    (bk : List (Node × Sign)) (dk : List (Node × Node)) (pb : LpProblem)
    (st : LoopState) (h : 1 < st.upper - st.lower)
    (hgt : ¬((sreaIter o icn stn dec bk dk pb st).1.upper -
      (sreaIter o icn stn dec bk dk pb st).1.lower ≤ 1)) :
    sreaLoop o icn stn dec ra bk dk pb st =
      ((sreaLoop o icn stn dec ra bk dk pb (sreaIter o icn stn dec bk dk pb st).1).1,
       (sreaIter o icn stn dec bk dk pb st).2 ::
         (sreaLoop o icn stn dec ra bk dk pb (sreaIter o icn stn dec bk dk pb st).1).2) := by
  rw [sreaLoop]
  rw [dif_pos h]
  dsimp only
  rw [if_neg hgt]

theorem sreaLoopEq4 (o : Oracle) (icn : InvNorm) (stn : STN) (dec ra : Bool)
    (bk : List (Node × Sign)) (dk : List (Node × Node)) (pb : LpProblem)
    (st : LoopState) (h : ¬(1 < st.upper - st.lower)) (hr : st.result = none) :
    sreaLoop o icn stn dec ra bk dk pb st = (SreaOut.ret none, []) := by
  rw [sreaLoop]
  rw [dif_neg h]
  rw [hr]

theorem sreaLoopEq5 (o : Oracle) (icn : InvNorm) (stn : STN) (dec ra : Bool)
    (bk : List (Node × Sign)) (dk : List (Node × Node)) (pb : LpProblem)
    (st : LoopState) (h : ¬(1 < st.upper - st.lower))
    (ar : ℚ × List (Node × Sign)) (hr : st.result = some ar) :
    sreaLoop o icn stn dec ra bk dk pb st = (SreaOut.assertFail, []) := by
  rw [sreaLoop]
  rw [dif_neg h]
  rw [hr]

/-- Every iteration emits exactly one solve event. -/
theorem sreaIter_event (o : Oracle) (icn : InvNorm) (stn : STN) (dec : Bool)
    (bk : List (Node × Sign)) (dk : List (Node × Node)) (pb : LpProblem)
    (st : LoopState) :
    ∃ a b, (sreaIter o icn stn dec bk dk pb st).2 = Event.solve a b := by
  unfold sreaIter
  dsimp only
  split <;> exact ⟨_, _, rfl⟩

/-- The loop's trace consists of solve events only: the reducer and the
builder are never invoked from inside the binary search. -/
theorem sreaLoop_events (o : Oracle) (icn : InvNorm) (stn : STN) (dec ra : Bool)
    (bk : List (Node × Sign)) (dk : List (Node × Node)) (pb : LpProblem)
    (st : LoopState) :
    ∀ e ∈ (sreaLoop o icn stn dec ra bk dk pb st).2, ∃ a b, e = Event.solve a b := by
  induction st using sreaLoop.induct o icn stn dec ra bk dk pb with
  | case1 st h it hle ar hr =>
    rw [sreaLoopEq1 o icn stn dec ra bk dk pb st h hle ar hr]
    intro e he
    rcases List.mem_singleton.mp he with rfl
    exact sreaIter_event o icn stn dec bk dk pb st
  | case2 st h it hle hr ih =>
    rw [sreaLoopEq2 o icn stn dec ra bk dk pb st h hle hr]
    intro e he
    rcases List.mem_cons.mp he with rfl | he'
    · exact sreaIter_event o icn stn dec bk dk pb st
    · exact ih e he'
  | case3 st h it hgt ih =>
    rw [sreaLoopEq3 o icn stn dec ra bk dk pb st h hgt]
    intro e he
    rcases List.mem_cons.mp he with rfl | he'
    · exact sreaIter_event o icn stn dec bk dk pb st
    · exact ih e he'
  | case4 st h hr =>
    rw [sreaLoopEq4 o icn stn dec ra bk dk pb st h hr]
    intro e he
    cases he
  | case5 st h ar hr =>
    rw [sreaLoopEq5 o icn stn dec ra bk dk pb st h ar hr]
    intro e he
    cases he

/--
C7: with decouple false, `srea` invokes the minimal-network reducer exactly
once, as the very first collaborator call, before any LP is built or
solved; and when the reducer signals inconsistency `srea` returns the
no-schedule value immediately, its trace showing no build and no solve.
-/
theorem c7_reducer_first (o : Oracle) (invcdf_norm : InvNorm)
    (get_minimal_network : STN → Option STN) (inputstn : STN)
    (returnAlpha : Bool) (lb ub : ℚ) :
    (get_minimal_network inputstn = none →
      srea o invcdf_norm get_minimal_network inputstn returnAlpha false lb ub =
        (SreaOut.ret none, [Event.reduce])) ∧
    ((srea o invcdf_norm get_minimal_network inputstn returnAlpha false lb ub).2.head? =
      some Event.reduce) ∧
    ((srea o invcdf_norm get_minimal_network inputstn returnAlpha false lb ub).2.count
      Event.reduce = 1) := by
  unfold srea workingNet
  rw [if_neg (by simp)]
  rcases hg : get_minimal_network inputstn with _ | stn
  · refine ⟨fun _ => rfl, rfl, rfl⟩
  · refine ⟨fun hc => absurd hc (by simp), ?_, ?_⟩
    · rfl
    · dsimp only
      rw [if_neg (by simp)]
      have hev := sreaLoop_events o invcdf_norm stn false returnAlpha
        (setUpLP stn false).bounds (setUpLP stn false).deltas (setUpLP stn false).prob
        { lower := initLower lb, upper := initUpper ub, result := none,
          dom := (setUpLP stn false).dom, vals := fun _ => 0, probes := [] }
      rw [List.count_append]
      have hz : (sreaLoop o invcdf_norm stn false returnAlpha
          (setUpLP stn false).bounds (setUpLP stn false).deltas (setUpLP stn false).prob
          { lower := initLower lb, upper := initUpper ub, result := none,
            dom := (setUpLP stn false).dom, vals := fun _ => 0, probes := [] }).2.count
          Event.reduce = 0 := by
        rw [List.count_eq_zero]
        intro hmem
        rcases hev Event.reduce hmem with ⟨a, b, hab⟩
        cases hab
      rw [hz]
      decide

/--
Witness for C7 at the concrete inconsistent input: the reducer that always
reports inconsistency makes `srea` return the no-schedule value with the
one-reduce trace, and on a consistent run the trace starts with the reduce
event and contains it exactly once.
-/
theorem c7_witness :
    srea oOpt icn0 gmnNone stn0 true false (1/2) (1/2) =
      (SreaOut.ret none, [Event.reduce]) ∧
    (srea oOpt icn0 gmnId stn0 true false (1/2) (1/2)).2.head? =
      some Event.reduce ∧
    (srea oOpt icn0 gmnId stn0 true false (1/2) (1/2)).2.count Event.reduce = 1 := by
  have h1 := c7_reducer_first oOpt icn0 gmnNone stn0 true (1/2) (1/2)
  have h2 := c7_reducer_first oOpt icn0 gmnId stn0 true (1/2) (1/2)
  exact ⟨h1.1 rfl, h2.2.1, h2.2.2⟩

/-- From any state satisfying the loop-entry contract — no recorded result
yet, or more than one tick of slack — the loop never reaches the trailing
assertion. -/
theorem sreaLoop_no_assert (o : Oracle) (icn : InvNorm) (stn : STN) (dec ra : Bool)
    (bk : List (Node × Sign)) (dk : List (Node × Node)) (pb : LpProblem)
    (st : LoopState) :
    st.result = none ∨ 1 < st.upper - st.lower →
    (sreaLoop o icn stn dec ra bk dk pb st).1 ≠ SreaOut.assertFail := by
  induction st using sreaLoop.induct o icn stn dec ra bk dk pb with
  | case1 st h it hle ar hr =>
    intro hpre
    rw [sreaLoopEq1 o icn stn dec ra bk dk pb st h hle ar hr]
    simp
  | case2 st h it hle hr ih =>
    intro hpre
    rw [sreaLoopEq2 o icn stn dec ra bk dk pb st h hle hr]
    exact ih (Or.inl hr)
  | case3 st h it hgt ih =>
    intro hpre
    rw [sreaLoopEq3 o icn stn dec ra bk dk pb st h hgt]
    refine ih (Or.inr ?_)
    have hb : (sreaIter o icn stn dec bk dk pb st).1.upper -
        (sreaIter o icn stn dec bk dk pb st).1.lower < st.upper - st.lower := by
      unfold sreaIter
      dsimp only
      split <;> dsimp only <;> omega
    omega
  | case4 st h hr =>
    intro hpre
    rw [sreaLoopEq4 o icn stn dec ra bk dk pb st h hr]
    simp
  | case5 st h ar hr =>
    intro hpre
    rcases hpre with hpre | hpre
    · rw [hpre] at hr
      cases hr
    · exact absurd hpre h

/--
C8: for every input and every sequence of feasible or infeasible trial
outcomes (every oracle), when the binary-search loop of `srea` terminates
after a feasible result was recorded it does so through the in-loop commit
branch: the fall-through state marked by the trailing assertion
(`SreaOut.assertFail`) is unreachable from `srea`.
-/
theorem c8_assert_unreachable (o : Oracle) (invcdf_norm : InvNorm)
    (get_minimal_network : STN → Option STN) (inputstn : STN)
    (returnAlpha decouple : Bool) (lb ub : ℚ) :
    (srea o invcdf_norm get_minimal_network inputstn returnAlpha decouple lb ub).1 ≠
      SreaOut.assertFail := by
  unfold srea
  rcases hw : workingNet get_minimal_network inputstn decouple with _ | stn
  · simp
  · dsimp only
    exact sreaLoop_no_assert o invcdf_norm stn decouple returnAlpha
      (setUpLP stn decouple).bounds (setUpLP stn decouple).deltas
      (setUpLP stn decouple).prob _ (Or.inl rfl)

/-- Witness for C8 at a concrete run. -/
theorem c8_witness :
    (srea oOpt icn0 gmnId stn0 true false (1/2) (1/2)).1 ≠ SreaOut.assertFail :=
  c8_assert_unreachable oOpt icn0 gmnId stn0 true false (1/2) (1/2)

/--
Counterexample to C2 as stated: the initial ticks do not both lie in
[0, 1000].  Already at the default lower risk bound lb = 0 the initial
lower tick is ceil(0 * 1000) - 1 = -1.
-/
theorem c2_cex : initLower 0 = -1 ∧ ¬(0 ≤ initLower 0) := by
  have h : initLower 0 = -1 := by
    unfold initLower
    norm_num
  exact ⟨h, by rw [h]; decide⟩

/--
C2 amended: `srea` initializes the search as lower = ceil(lb*1000) - 1 and
upper = floor(ub*1000) + 1; for lb, ub in [0,1] these lie in [-1, 999] and
[1, 1001] respectively, and every probed midpoint then lies in [0, 1000].
Each iteration probes mid = (upper+lower) // 2 at alpha = mid/1000, records
the result and sets upper = mid when the trial is feasible, and sets
lower = mid when it is infeasible; the binary-search invariant — lower is
the greatest known-or-assumed-infeasible tick and upper the least
known-feasible tick, or the initial sentinel while none was found — holds
initially and is preserved by every iteration.
-/
theorem c2_amended_search :
    (∀ lb ub : ℚ, 0 ≤ lb → lb ≤ 1 → 0 ≤ ub → ub ≤ 1 →
      -1 ≤ initLower lb ∧ initLower lb ≤ 999 ∧
      1 ≤ initUpper ub ∧ initUpper ub ≤ 1001) ∧
    (∀ l u : ℤ, -1 ≤ l → u ≤ 1001 → 1 < u - l →
      0 ≤ (u + l) / 2 ∧ (u + l) / 2 ≤ 1000) ∧
    (∀ o : Oracle, ∀ invcdf_norm : InvNorm, ∀ stn : STN, ∀ dec : Bool,
      ∀ bk : List (Node × Sign), ∀ dk : List (Node × Node), ∀ pb : LpProblem,
      ∀ st : LoopState,
      (sreaIter o invcdf_norm stn dec bk dk pb st).2 =
        Event.solve ((((st.upper + st.lower) / 2 : ℤ) : ℚ) / 1000)
          (srea_LP_core o invcdf_norm stn ((((st.upper + st.lower) / 2 : ℤ) : ℚ) / 1000)
            dec (some { bounds := bk, deltas := dk, prob := pb,
                        dom := st.dom, vals := st.vals })).1.isSome ∧
      (∀ lpb, (srea_LP_core o invcdf_norm stn
          ((((st.upper + st.lower) / 2 : ℤ) : ℚ) / 1000) dec
          (some { bounds := bk, deltas := dk, prob := pb,
                  dom := st.dom, vals := st.vals })).1 = some lpb →
        (sreaIter o invcdf_norm stn dec bk dk pb st).1.upper = (st.upper + st.lower) / 2 ∧
        (sreaIter o invcdf_norm stn dec bk dk pb st).1.lower = st.lower ∧
        (sreaIter o invcdf_norm stn dec bk dk pb st).1.result =
          some (((((st.upper + st.lower) / 2 : ℤ) : ℚ) / 1000), lpb)) ∧
      ((srea_LP_core o invcdf_norm stn ((((st.upper + st.lower) / 2 : ℤ) : ℚ) / 1000) dec
          (some { bounds := bk, deltas := dk, prob := pb,
                  dom := st.dom, vals := st.vals })).1 = none →
        (sreaIter o invcdf_norm stn dec bk dk pb st).1.lower = (st.upper + st.lower) / 2 ∧
        (sreaIter o invcdf_norm stn dec bk dk pb st).1.upper = st.upper ∧
        (sreaIter o invcdf_norm stn dec bk dk pb st).1.result = st.result)) ∧
    (∀ l0 u0 : ℤ, ∀ dom : Var → VarDom, ∀ vals : Var → ℚ,
      SearchInv l0 u0 { lower := l0, upper := u0, result := none,
                        dom := dom, vals := vals, probes := [] }) ∧
    (∀ o : Oracle, ∀ invcdf_norm : InvNorm, ∀ stn : STN, ∀ dec : Bool,
      ∀ bk : List (Node × Sign), ∀ dk : List (Node × Node), ∀ pb : LpProblem,
      ∀ l0 u0 : ℤ, ∀ st : LoopState,
      SearchInv l0 u0 st → 1 < st.upper - st.lower →
      SearchInv l0 u0 (sreaIter o invcdf_norm stn dec bk dk pb st).1) := by
  refine ⟨?_, ?_, ?_, ?_, ?_⟩
  · intro lb ub hlb0 hlb1 hub0 hub1
    have h1 : (0 : ℤ) ≤ Int.ceil (lb * 1000) := by
      rw [show (0 : ℤ) = Int.ceil ((0 : ℚ)) by norm_num]
      exact Int.ceil_le_ceil (by positivity)
    have h2 : Int.ceil (lb * 1000) ≤ 1000 := by
      rw [show (1000 : ℤ) = Int.ceil ((1000 : ℚ)) by norm_num]
      exact Int.ceil_le_ceil (by nlinarith)
    have h3 : (0 : ℤ) ≤ Int.floor (ub * 1000) := by
      rw [show (0 : ℤ) = Int.floor ((0 : ℚ)) by norm_num]
      exact Int.floor_le_floor (by positivity)
    have h4 : Int.floor (ub * 1000) ≤ 1000 := by
      rw [show (1000 : ℤ) = Int.floor ((1000 : ℚ)) by norm_num]
      exact Int.floor_le_floor (by nlinarith)
    unfold initLower initUpper
    omega
  · intro l u h1 h2 h3
    omega
  · intro o invcdf_norm stn dec bk dk pb st
    unfold sreaIter
    dsimp only
    split
    · next lpb heq =>
      rw [heq]
      refine ⟨rfl, fun lpb' heq' => ?_, fun hnone => ?_⟩
      · have hl : lpb' = lpb := (Option.some.inj heq').symm
        subst hl
        exact ⟨rfl, rfl, rfl⟩
      · exact absurd hnone (by simp)
    · next heq =>
      rw [heq]
      refine ⟨rfl, fun lpb' heq' => ?_, fun _ => ⟨rfl, rfl, rfl⟩⟩
      exact absurd heq' (by simp)
  · intro l0 u0 dom vals
    refine ⟨Or.inl rfl, ?_, ?_, ?_, ?_⟩
    · intro p hp
      cases hp
    · intro _
      exact ⟨rfl, fun p hp => by cases hp⟩
    · intro h
      simp at h
    · intro p hp
      cases hp
  · intro o invcdf_norm stn dec bk dk pb l0 u0 st hinv hgap
    obtain ⟨hlow, hfalse, hnone, hsome, htrue⟩ := hinv
    have hmid1 : st.lower < (st.upper + st.lower) / 2 := by omega
    have hmid2 : (st.upper + st.lower) / 2 < st.upper := by omega
    unfold sreaIter
    dsimp only
    split
    · refine ⟨?_, ?_, ?_, ?_, ?_⟩
      · dsimp only
        rcases hlow with hl | hl
        · exact Or.inl hl
        · exact Or.inr (List.mem_append_left _ hl)
      · dsimp only
        intro p hp hpf
        rcases List.mem_append.mp hp with hp' | hp'
        · exact hfalse p hp' hpf
        · rcases List.mem_singleton.mp hp' with rfl
          cases hpf
      · dsimp only
        intro hres
        cases hres
      · dsimp only
        intro _
        exact List.mem_append_right _ (List.mem_singleton.mpr rfl)
      · dsimp only
        intro p hp hpt
        rcases List.mem_append.mp hp with hp' | hp'
        · have := htrue p hp' hpt
          omega
        · rcases List.mem_singleton.mp hp' with rfl
          omega
    · refine ⟨?_, ?_, ?_, ?_, ?_⟩
      · dsimp only
        exact Or.inr (List.mem_append_right _ (List.mem_singleton.mpr rfl))
      · dsimp only
        intro p hp hpf
        rcases List.mem_append.mp hp with hp' | hp'
        · have := hfalse p hp' hpf
          omega
        · rcases List.mem_singleton.mp hp' with rfl
          omega
      · dsimp only
        intro hres
        obtain ⟨hu, hall⟩ := hnone hres
        refine ⟨hu, ?_⟩
        intro p hp
        rcases List.mem_append.mp hp with hp' | hp'
        · exact hall p hp'
        · rcases List.mem_singleton.mp hp' with rfl
          rfl
      · dsimp only
        intro hres
        exact List.mem_append_left _ (hsome hres)
      · dsimp only
        intro p hp hpt
        rcases List.mem_append.mp hp with hp' | hp'
        · exact htrue p hp' hpt
        · rcases List.mem_singleton.mp hp' with rfl
          cases hpt

/--
Witness for C2 amended: the concrete initial interval at lb = ub = 1/2 is
[499, 501], within the amended ranges; the invariant holds of the initial
state and is preserved by the first concrete iteration.
-/
theorem c2_witness :
    (-1 ≤ initLower (1/2) ∧ initLower (1/2) ≤ 999 ∧
     1 ≤ initUpper (1/2) ∧ initUpper (1/2) ≤ 1001) ∧
    SearchInv 499 501 { lower := 499, upper := 501, result := none,
                        dom := dom0, vals := vals0, probes := [] } ∧
    SearchInv 499 501 (sreaIter oOpt icn0 stn0 false [] [] emptyProb
      { lower := 499, upper := 501, result := none,
        dom := dom0, vals := vals0, probes := [] }).1 := by
  have h := c2_amended_search
  refine ⟨h.1 (1/2) (1/2) (by norm_num) (by norm_num) (by norm_num) (by norm_num),
    h.2.2.2.1 499 501 dom0 vals0, ?_⟩
  exact h.2.2.2.2 oOpt icn0 stn0 false [] [] emptyProb 499 501 _
    (h.2.2.2.1 499 501 dom0 vals0) (by norm_num)

theorem feasAlphas_nil : feasAlphas [] = [] := rfl

theorem feasAlphas_cons_true (a : ℚ) (evs : List Event) :
    feasAlphas (Event.solve a true :: evs) = a :: feasAlphas evs := rfl

theorem feasAlphas_cons_false (a : ℚ) (evs : List Event) :
    feasAlphas (Event.solve a false :: evs) = feasAlphas evs := rfl

theorem feasAlphas_append (l1 l2 : List Event) :
    feasAlphas (l1 ++ l2) = feasAlphas l1 ++ feasAlphas l2 := by
  unfold feasAlphas
  exact List.filterMap_append l1 l2 _

theorem feasAlphas_eq_nil_iff (evs : List Event) :
    feasAlphas evs = [] ↔ ∀ a : ℚ, Event.solve a true ∉ evs := by
  induction evs with
  | nil => simp [feasAlphas]
  | cons e t ih =>
    rcases e with _ | _ | ⟨a, b⟩
    · rw [show feasAlphas (Event.reduce :: t) = feasAlphas t from rfl]
      rw [ih]
      constructor
      · intro h a ha
        rcases List.mem_cons.mp ha with ha' | ha'
        · cases ha'
        · exact h a ha'
      · intro h a ha
        exact h a (List.mem_cons_of_mem _ ha)
    · rw [show feasAlphas (Event.build :: t) = feasAlphas t from rfl]
      rw [ih]
      constructor
      · intro h a ha
        rcases List.mem_cons.mp ha with ha' | ha'
        · cases ha'
        · exact h a ha'
      · intro h a ha
        exact h a (List.mem_cons_of_mem _ ha)
    · cases b
      · rw [feasAlphas_cons_false, ih]
        constructor
        · intro h a ha
          rcases List.mem_cons.mp ha with ha' | ha'
          · cases ha'
          · exact h a ha'
        · intro h a ha
          exact h a (List.mem_cons_of_mem _ ha)
      · constructor
        · intro h
          rw [feasAlphas_cons_true] at h
          cases h
        · intro h
          exact absurd (List.mem_cons_self _ _) (h a)

theorem getLast?_cons_of_ne_nil (a : ℚ) (l : List ℚ) (h : l ≠ []) :
    (a :: l).getLast? = l.getLast? := by
  cases l with
  | nil => exact absurd rfl h
  | cons b t => exact List.getLast?_cons_cons

theorem srea_LP_core_fst (o : Oracle) (invcdf_norm : InvNorm) (stn : STN)
    (alpha : ℚ) (dec : Bool) (pc : Option ProbC) :
    (srea_LP_core o invcdf_norm stn alpha dec pc).1 =
      if (o (preparedLP invcdf_norm stn alpha dec pc).1
          (preparedLP invcdf_norm stn alpha dec pc).2).1 = LpStatus.Optimal
      then some (resolvePC stn dec pc).bounds else none := rfl

/-- Each iteration either records `(mid/1000, bounds-dict)` as the new best
result (feasible trial) or leaves the recorded result unchanged (infeasible
trial), emitting the matching solve event. -/
theorem sreaIter_cases (o : Oracle) (icn : InvNorm) (stn : STN) (dec : Bool)
    (bk : List (Node × Sign)) (dk : List (Node × Node)) (pb : LpProblem)
    (st : LoopState) :
    ((sreaIter o icn stn dec bk dk pb st).1.result =
        some ((((st.upper + st.lower) / 2 : ℤ) : ℚ) / 1000, bk) ∧
      (sreaIter o icn stn dec bk dk pb st).2 =
        Event.solve ((((st.upper + st.lower) / 2 : ℤ) : ℚ) / 1000) true) ∨
    ((sreaIter o icn stn dec bk dk pb st).1.result = st.result ∧
      (sreaIter o icn stn dec bk dk pb st).2 =
        Event.solve ((((st.upper + st.lower) / 2 : ℤ) : ℚ) / 1000) false) := by
  unfold sreaIter
  dsimp only
  split
  · next LPbounds heq =>
    left
    have hbk : LPbounds = bk := by
      rw [srea_LP_core_fst] at heq
      split at heq
      · exact (Option.some.inj heq).symm
      · exact absurd heq (by simp)
    subst hbk
    exact ⟨rfl, rfl⟩
  · next heq =>
    right
    exact ⟨rfl, rfl⟩

/-- Characterization of the loop's outcome: started from a state obeying
the loop contract (no result recorded, or more than a tick of slack; any
recorded result carries the bounds dict), the loop returns the no-schedule
value when its trace shows no feasible trial and no result was recorded,
and otherwise commits the bounds dict onto the network under the alpha of
the last recorded result — the last feasible solve event of the trace, or
the alpha already recorded when the remaining trace has no feasible trial. -/
theorem sreaLoop_char (o : Oracle) (icn : InvNorm) (stn : STN) (dec ra : Bool)
    (bk : List (Node × Sign)) (dk : List (Node × Node)) (pb : LpProblem)
    (st : LoopState) :
    (st.result = none ∨ 1 < st.upper - st.lower) →
    (∀ a : ℚ, ∀ lpb : List (Node × Sign), st.result = some (a, lpb) → lpb = bk) →
    ((feasAlphas (sreaLoop o icn stn dec ra bk dk pb st).2 = [] ∧ st.result = none →
        (sreaLoop o icn stn dec ra bk dk pb st).1 = SreaOut.ret none) ∧
     (∀ aL : ℚ,
        ((feasAlphas (sreaLoop o icn stn dec ra bk dk pb st).2).getLast? = some aL ∨
         (feasAlphas (sreaLoop o icn stn dec ra bk dk pb st).2 = [] ∧
           ∃ lpb, st.result = some (aL, lpb))) →
        ∃ vals, (sreaLoop o icn stn dec ra bk dk pb st).1 =
          SreaOut.ret (some (if ra then SreaRet.pair aL (commitBounds stn bk vals)
            else SreaRet.net (commitBounds stn bk vals))))) := by
  induction st using sreaLoop.induct o icn stn dec ra bk dk pb with
  | case1 st h it hle ar hr =>
    intro hpre hbk
    rw [sreaLoopEq1 o icn stn dec ra bk dk pb st h hle ar hr]
    rcases sreaIter_cases o icn stn dec bk dk pb st with ⟨hres, hev⟩ | ⟨hres, hev⟩
    · have har : ar = ((((st.upper + st.lower) / 2 : ℤ) : ℚ) / 1000, bk) :=
        Option.some.inj (hr.symm.trans hres)
      rw [hev]
      constructor
      · intro ⟨hfa, _⟩
        rw [feasAlphas_cons_true, feasAlphas_nil] at hfa
        cases hfa
      · intro aL hd
        rcases hd with hd | ⟨hfa, _⟩
        · rw [feasAlphas_cons_true, feasAlphas_nil] at hd
          have haL : aL = (((st.upper + st.lower) / 2 : ℤ) : ℚ) / 1000 := by
            simpa using hd.symm
          refine ⟨(sreaIter o icn stn dec bk dk pb st).1.vals, ?_⟩
          rw [har, haL]
        · rw [feasAlphas_cons_true, feasAlphas_nil] at hfa
          cases hfa
    · have hstr : st.result = some ar := hres.symm.trans hr
      rw [hev]
      constructor
      · intro ⟨_, hn⟩
        rw [hn] at hstr
        cases hstr
      · intro aL hd
        rcases hd with hd | ⟨_, lpb, hsome⟩
        · rw [feasAlphas_cons_false, feasAlphas_nil] at hd
          cases hd
        · have har : ar = (aL, lpb) := Option.some.inj (hstr.symm.trans hsome)
          have hlpb : lpb = bk := hbk aL lpb hsome
          refine ⟨(sreaIter o icn stn dec bk dk pb st).1.vals, ?_⟩
          rw [har, hlpb]
  | case2 st h it hle hr ih =>
    intro hpre hbk
    rw [sreaLoopEq2 o icn stn dec ra bk dk pb st h hle hr]
    rcases sreaIter_cases o icn stn dec bk dk pb st with ⟨hres, hev⟩ | ⟨hres, hev⟩
    · rw [hr] at hres
      cases hres
    · have hstr : st.result = none := hres.symm.trans hr
      have ih' := ih (Or.inl hr) (fun a lpb hsome => by rw [hr] at hsome; cases hsome)
      rw [hev, feasAlphas_cons_false]
      constructor
      · intro ⟨hfa, _⟩
        exact ih'.1 ⟨hfa, hr⟩
      · intro aL hd
        rcases hd with hd | ⟨_, lpb, hsome⟩
        · exact ih'.2 aL (Or.inl hd)
        · rw [hstr] at hsome
          cases hsome
  | case3 st h it hgt ih =>
    intro hpre hbk
    rw [sreaLoopEq3 o icn stn dec ra bk dk pb st h hgt]
    have hgt2 : ¬((sreaIter o icn stn dec bk dk pb st).1.upper -
        (sreaIter o icn stn dec bk dk pb st).1.lower ≤ 1) := hgt
    have hpre' : (sreaIter o icn stn dec bk dk pb st).1.result = none ∨
        1 < (sreaIter o icn stn dec bk dk pb st).1.upper -
          (sreaIter o icn stn dec bk dk pb st).1.lower := Or.inr (by omega)
    rcases sreaIter_cases o icn stn dec bk dk pb st with ⟨hres, hev⟩ | ⟨hres, hev⟩
    · have hbk' : ∀ a : ℚ, ∀ lpb : List (Node × Sign),
          (sreaIter o icn stn dec bk dk pb st).1.result = some (a, lpb) → lpb = bk := by
        intro a lpb hsome
        have hpair := Option.some.inj (hres.symm.trans hsome)
        exact (congrArg Prod.snd hpair).symm
      have ih' := ih hpre' hbk'
      rw [hev, feasAlphas_cons_true]
      constructor
      · intro ⟨hfa, _⟩
        cases hfa
      · intro aL hd
        rcases hd with hd | ⟨hfa, _⟩
        · by_cases hL : feasAlphas (sreaLoop o icn stn dec ra bk dk pb
              (sreaIter o icn stn dec bk dk pb st).1).2 = []
          · rw [hL] at hd
            have haL : aL = (((st.upper + st.lower) / 2 : ℤ) : ℚ) / 1000 := by
              simpa using hd.symm
            refine ih'.2 aL (Or.inr ⟨hL, bk, ?_⟩)
            rw [hres, haL]
          · rw [getLast?_cons_of_ne_nil _ _ hL] at hd
            exact ih'.2 aL (Or.inl hd)
        · cases hfa
    · have hbk' : ∀ a : ℚ, ∀ lpb : List (Node × Sign),
          (sreaIter o icn stn dec bk dk pb st).1.result = some (a, lpb) → lpb = bk := by
        intro a lpb hsome
        exact hbk a lpb (hres.symm.trans hsome)
      have ih' := ih hpre' hbk'
      rw [hev, feasAlphas_cons_false]
      constructor
      · intro ⟨hfa, hn⟩
        exact ih'.1 ⟨hfa, by rw [hres, hn]⟩
      · intro aL hd
        rcases hd with hd | ⟨hfa, lpb, hsome⟩
        · exact ih'.2 aL (Or.inl hd)
        · refine ih'.2 aL (Or.inr ⟨hfa, lpb, ?_⟩)
          rw [hres, hsome]
  | case4 st h hr =>
    intro hpre hbk
    rw [sreaLoopEq4 o icn stn dec ra bk dk pb st h hr]
    constructor
    · intro _
      rfl
    · intro aL hd
      rcases hd with hd | ⟨_, lpb, hsome⟩
      · rw [feasAlphas_nil] at hd
        cases hd
      · rw [hr] at hsome
        cases hsome
  | case5 st h ar hr =>
    intro hpre hbk
    rcases hpre with hpre | hpre
    · rw [hpre] at hr
      cases hr
    · exact absurd hpre h

/-
Lemmas about the final commit of the winning bounds.
-/

theorem update_edge_weight_w (s : STN) (i j : Node) (v : ℚ) (a b : Node) :
    (s.update_edge_weight i j v).w a b = if a = i ∧ b = j then v else s.w a b := rfl

theorem commitBounds_w_other (s : STN) (keys : List (Node × Sign)) (vals : Var → ℚ)
    (a b : Node)
    (h : ∀ i : Node, ∀ sg : Sign, (i, sg) ∈ keys →
      ¬(a = 0 ∧ b = i) ∧ ¬(a = i ∧ b = 0)) :
    (commitBounds s keys vals).w a b = s.w a b := by
  induction keys generalizing s with
  | nil => rfl
  | cons k t ih =>
    rcases k with ⟨i, sg⟩
    have hk := h i sg (List.mem_cons_self _ _)
    have ht : ∀ i : Node, ∀ sg : Sign, (i, sg) ∈ t →
        ¬(a = 0 ∧ b = i) ∧ ¬(a = i ∧ b = 0) :=
      fun i' sg' hm => h i' sg' (List.mem_cons_of_mem _ hm)
    cases sg
    · rw [show commitBounds s ((i, Sign.plus) :: t) vals =
          commitBounds (s.update_edge_weight 0 i
            ((Int.ceil (vals (Var.bnd i Sign.plus)) : ℤ) : ℚ)) t vals from rfl]
      rw [ih _ ht, update_edge_weight_w, if_neg hk.1]
    · rw [show commitBounds s ((i, Sign.minus) :: t) vals =
          commitBounds (s.update_edge_weight i 0
            ((Int.ceil (-(vals (Var.bnd i Sign.minus))) : ℤ) : ℚ)) t vals from rfl]
      rw [ih _ ht, update_edge_weight_w, if_neg hk.2]

theorem commitBounds_pres_plus (s : STN) (t : List (Node × Sign)) (vals : Var → ℚ)
    (i : Node) (hi : i ≠ 0)
    (h : s.w 0 i = ((Int.ceil (vals (Var.bnd i Sign.plus)) : ℤ) : ℚ)) :
    (commitBounds s t vals).w 0 i =
      ((Int.ceil (vals (Var.bnd i Sign.plus)) : ℤ) : ℚ) := by
  induction t generalizing s with
  | nil => exact h
  | cons k r ih =>
    rcases k with ⟨i', sg⟩
    cases sg
    · rw [show commitBounds s ((i', Sign.plus) :: r) vals =
          commitBounds (s.update_edge_weight 0 i'
            ((Int.ceil (vals (Var.bnd i' Sign.plus)) : ℤ) : ℚ)) r vals from rfl]
      refine ih _ ?_
      rw [update_edge_weight_w]
      by_cases hii : i = i'
      · rw [if_pos ⟨rfl, hii⟩, hii]
      · rw [if_neg (fun hc => hii hc.2), h]
    · rw [show commitBounds s ((i', Sign.minus) :: r) vals =
          commitBounds (s.update_edge_weight i' 0
            ((Int.ceil (-(vals (Var.bnd i' Sign.minus))) : ℤ) : ℚ)) r vals from rfl]
      refine ih _ ?_
      rw [update_edge_weight_w, if_neg (fun hc => hi hc.2), h]

theorem commitBounds_pres_minus (s : STN) (t : List (Node × Sign)) (vals : Var → ℚ)
    (i : Node) (hi : i ≠ 0)
    (h : s.w i 0 = ((Int.ceil (-(vals (Var.bnd i Sign.minus))) : ℤ) : ℚ)) :
    (commitBounds s t vals).w i 0 =
      ((Int.ceil (-(vals (Var.bnd i Sign.minus))) : ℤ) : ℚ) := by
  induction t generalizing s with
  | nil => exact h
  | cons k r ih =>
    rcases k with ⟨i', sg⟩
    cases sg
    · rw [show commitBounds s ((i', Sign.plus) :: r) vals =
          commitBounds (s.update_edge_weight 0 i'
            ((Int.ceil (vals (Var.bnd i' Sign.plus)) : ℤ) : ℚ)) r vals from rfl]
      refine ih _ ?_
      rw [update_edge_weight_w, if_neg (fun hc => hi hc.1), h]
    · rw [show commitBounds s ((i', Sign.minus) :: r) vals =
          commitBounds (s.update_edge_weight i' 0
            ((Int.ceil (-(vals (Var.bnd i' Sign.minus))) : ℤ) : ℚ)) r vals from rfl]
      refine ih _ ?_
      rw [update_edge_weight_w]
      by_cases hii : i = i'
      · rw [if_pos ⟨hii, rfl⟩, hii]
      · rw [if_neg (fun hc => hii hc.1), h]

theorem commitBounds_w_plus (s : STN) (keys : List (Node × Sign)) (vals : Var → ℚ)
    (i : Node) (hi : i ≠ 0) (hmem : (i, Sign.plus) ∈ keys) :
    (commitBounds s keys vals).w 0 i =
      ((Int.ceil (vals (Var.bnd i Sign.plus)) : ℤ) : ℚ) := by
  induction keys generalizing s with
  | nil => cases hmem
  | cons k t ih =>
    rcases List.mem_cons.mp hmem with heq | hmem'
    · rcases heq
      rw [show commitBounds s ((i, Sign.plus) :: t) vals =
          commitBounds (s.update_edge_weight 0 i
            ((Int.ceil (vals (Var.bnd i Sign.plus)) : ℤ) : ℚ)) t vals from rfl]
      refine commitBounds_pres_plus _ t vals i hi ?_
      rw [update_edge_weight_w, if_pos ⟨rfl, rfl⟩]
    · rcases k with ⟨i', sg⟩
      cases sg
      · rw [show commitBounds s ((i', Sign.plus) :: t) vals =
            commitBounds (s.update_edge_weight 0 i'
              ((Int.ceil (vals (Var.bnd i' Sign.plus)) : ℤ) : ℚ)) t vals from rfl]
        exact ih _ hmem'
      · rw [show commitBounds s ((i', Sign.minus) :: t) vals =
            commitBounds (s.update_edge_weight i' 0
              ((Int.ceil (-(vals (Var.bnd i' Sign.minus))) : ℤ) : ℚ)) t vals from rfl]
        exact ih _ hmem'

theorem commitBounds_w_minus (s : STN) (keys : List (Node × Sign)) (vals : Var → ℚ)
    (i : Node) (hi : i ≠ 0) (hmem : (i, Sign.minus) ∈ keys) :
    (commitBounds s keys vals).w i 0 =
      ((Int.ceil (-(vals (Var.bnd i Sign.minus))) : ℤ) : ℚ) := by
  induction keys generalizing s with
  | nil => cases hmem
  | cons k t ih =>
    rcases List.mem_cons.mp hmem with heq | hmem'
    · rcases heq
      rw [show commitBounds s ((i, Sign.minus) :: t) vals =
          commitBounds (s.update_edge_weight i 0
            ((Int.ceil (-(vals (Var.bnd i Sign.minus))) : ℤ) : ℚ)) t vals from rfl]
      refine commitBounds_pres_minus _ t vals i hi ?_
      rw [update_edge_weight_w, if_pos ⟨rfl, rfl⟩]
    · rcases k with ⟨i', sg⟩
      cases sg
      · rw [show commitBounds s ((i', Sign.plus) :: t) vals =
            commitBounds (s.update_edge_weight 0 i'
              ((Int.ceil (vals (Var.bnd i' Sign.plus)) : ℤ) : ℚ)) t vals from rfl]
        exact ih _ hmem'
      · rw [show commitBounds s ((i', Sign.minus) :: t) vals =
            commitBounds (s.update_edge_weight i' 0
              ((Int.ceil (-(vals (Var.bnd i' Sign.minus))) : ℤ) : ℚ)) t vals from rfl]
        exact ih _ hmem'

theorem feasAlphas_prefix (dec : Bool) (evs : List Event) :
    feasAlphas ((if dec then [Event.build] else [Event.reduce, Event.build]) ++ evs) =
      feasAlphas evs := by
  cases dec
  · rw [if_neg (by simp), feasAlphas_append,
      show feasAlphas [Event.reduce, Event.build] = [] from rfl, List.nil_append]
  · rw [if_pos rfl, feasAlphas_append,
      show feasAlphas [Event.build] = [] from rfl, List.nil_append]

/--
C1: when no feasible trial ever occurred, `srea` returns the no-schedule
value; when one did, `srea` takes the alpha of the last recorded feasible
trial and returns — as `(alpha, network)` when returnAlpha is requested and
as the bare network otherwise — the working network with, for every node i
keyed in the bounds dict, w(0,i) overwritten by ceil of the plus-bound
value and w(i,0) by ceil of the negated minus-bound value.
-/
theorem c1_commit_on_success (o : Oracle) (invcdf_norm : InvNorm)
    (gmn : STN → Option STN) (inputstn : STN) (ra dec : Bool) (lb ub : ℚ) :
    ((∀ a : ℚ, Event.solve a true ∉ (srea o invcdf_norm gmn inputstn ra dec lb ub).2) →
      (srea o invcdf_norm gmn inputstn ra dec lb ub).1 = SreaOut.ret none) ∧
    (∀ aL : ℚ,
      (feasAlphas (srea o invcdf_norm gmn inputstn ra dec lb ub).2).getLast? = some aL →
      ∃ stnW : STN, ∃ vals : Var → ℚ,
        workingNet gmn inputstn dec = some stnW ∧
        (srea o invcdf_norm gmn inputstn ra dec lb ub).1 =
          SreaOut.ret (some (if ra then
              SreaRet.pair aL (commitBounds stnW (setUpLP stnW dec).bounds vals)
            else
              SreaRet.net (commitBounds stnW (setUpLP stnW dec).bounds vals))) ∧
        (∀ i : Node, i ≠ 0 → (i, Sign.plus) ∈ (setUpLP stnW dec).bounds →
          (commitBounds stnW (setUpLP stnW dec).bounds vals).get_edge_weight 0 i =
            ((Int.ceil (vals (Var.bnd i Sign.plus)) : ℤ) : ℚ)) ∧
        (∀ i : Node, i ≠ 0 → (i, Sign.minus) ∈ (setUpLP stnW dec).bounds →
          (commitBounds stnW (setUpLP stnW dec).bounds vals).get_edge_weight i 0 =
            ((Int.ceil (-(vals (Var.bnd i Sign.minus))) : ℤ) : ℚ))) := by
  rcases hw : workingNet gmn inputstn dec with _ | stn
  · have hs : srea o invcdf_norm gmn inputstn ra dec lb ub =
        (SreaOut.ret none, [Event.reduce]) := by
      unfold srea
      rw [hw]
    constructor
    · intro _
      rw [hs]
    · intro aL hd
      rw [hs] at hd
      cases hd
  · have hs : srea o invcdf_norm gmn inputstn ra dec lb ub =
        ((sreaLoop o invcdf_norm stn dec ra (setUpLP stn dec).bounds
            (setUpLP stn dec).deltas (setUpLP stn dec).prob
            { lower := initLower lb, upper := initUpper ub, result := none,
              dom := (setUpLP stn dec).dom, vals := fun _ => 0, probes := [] }).1,
         (if dec then [Event.build] else [Event.reduce, Event.build]) ++
           (sreaLoop o invcdf_norm stn dec ra (setUpLP stn dec).bounds
             (setUpLP stn dec).deltas (setUpLP stn dec).prob
             { lower := initLower lb, upper := initUpper ub, result := none,
               dom := (setUpLP stn dec).dom, vals := fun _ => 0, probes := [] }).2) := by
      unfold srea
      rw [hw]
    have hchar := sreaLoop_char o invcdf_norm stn dec ra (setUpLP stn dec).bounds
      (setUpLP stn dec).deltas (setUpLP stn dec).prob
      { lower := initLower lb, upper := initUpper ub, result := none,
        dom := (setUpLP stn dec).dom, vals := fun _ => 0, probes := [] }
      (Or.inl rfl) (fun a lpb hsome => Option.noConfusion hsome)
    constructor
    · intro hno
      rw [hs]
      refine hchar.1 ⟨?_, rfl⟩
      rw [feasAlphas_eq_nil_iff]
      intro a ha
      apply hno a
      rw [hs]
      exact List.mem_append_right _ ha
    · intro aL hd
      rw [hs, feasAlphas_prefix] at hd
      rcases hchar.2 aL (Or.inl hd) with ⟨vals, hout⟩
      refine ⟨stn, vals, rfl, ?_, ?_, ?_⟩
      · rw [hs]
        exact hout
      · intro i hi hmem
        exact commitBounds_w_plus stn (setUpLP stn dec).bounds vals i hi hmem
      · intro i hi hmem
        exact commitBounds_w_minus stn (setUpLP stn dec).bounds vals i hi hmem

/--
C9: the caller's network is never aliased (the embedding's value semantics
renders the deep copy of srea.py line 108); the network `srea` returns on
success is exactly the working network — the reduced copy when decouple is
false — with the winning bound values committed once onto it; and the
commit touches no edge other than the (0,i) and (i,0) edges of the keyed
nodes.
-/
theorem c9_commit_frame (o : Oracle) (invcdf_norm : InvNorm)
    (gmn : STN → Option STN) (inputstn : STN) (ra dec : Bool) (lb ub : ℚ) :
    (∀ r : SreaRet,
      (srea o invcdf_norm gmn inputstn ra dec lb ub).1 = SreaOut.ret (some r) →
      ∃ stnW : STN, ∃ vals : Var → ℚ,
        workingNet gmn inputstn dec = some stnW ∧
        retNet r = commitBounds stnW (setUpLP stnW dec).bounds vals) ∧
    (∀ s : STN, ∀ keys : List (Node × Sign), ∀ vals : Var → ℚ, ∀ a b : Node,
      (∀ i : Node, ∀ sg : Sign, (i, sg) ∈ keys →
        ¬(a = 0 ∧ b = i) ∧ ¬(a = i ∧ b = 0)) →
      (commitBounds s keys vals).get_edge_weight a b = s.get_edge_weight a b) := by
  constructor
  · intro r hr
    rcases hw : workingNet gmn inputstn dec with _ | stn
    · have hs : srea o invcdf_norm gmn inputstn ra dec lb ub =
          (SreaOut.ret none, [Event.reduce]) := by
        unfold srea
        rw [hw]
      rw [hs] at hr
      cases hr
    · have hs : srea o invcdf_norm gmn inputstn ra dec lb ub =
          ((sreaLoop o invcdf_norm stn dec ra (setUpLP stn dec).bounds
              (setUpLP stn dec).deltas (setUpLP stn dec).prob
              { lower := initLower lb, upper := initUpper ub, result := none,
                dom := (setUpLP stn dec).dom, vals := fun _ => 0, probes := [] }).1,
           (if dec then [Event.build] else [Event.reduce, Event.build]) ++
             (sreaLoop o invcdf_norm stn dec ra (setUpLP stn dec).bounds
               (setUpLP stn dec).deltas (setUpLP stn dec).prob
               { lower := initLower lb, upper := initUpper ub, result := none,
                 dom := (setUpLP stn dec).dom, vals := fun _ => 0, probes := [] }).2) := by
        unfold srea
        rw [hw]
      have hchar := sreaLoop_char o invcdf_norm stn dec ra (setUpLP stn dec).bounds
        (setUpLP stn dec).deltas (setUpLP stn dec).prob
        { lower := initLower lb, upper := initUpper ub, result := none,
          dom := (setUpLP stn dec).dom, vals := fun _ => 0, probes := [] }
        (Or.inl rfl) (fun a lpb hsome => Option.noConfusion hsome)
      rw [hs] at hr
      by_cases hfa : feasAlphas (sreaLoop o invcdf_norm stn dec ra (setUpLP stn dec).bounds
          (setUpLP stn dec).deltas (setUpLP stn dec).prob
          { lower := initLower lb, upper := initUpper ub, result := none,
            dom := (setUpLP stn dec).dom, vals := fun _ => 0, probes := [] }).2 = []
      · have hnone := hchar.1 ⟨hfa, rfl⟩
        rw [hnone] at hr
        cases hr
      · have hex : ∃ aL, (feasAlphas (sreaLoop o invcdf_norm stn dec ra
            (setUpLP stn dec).bounds (setUpLP stn dec).deltas (setUpLP stn dec).prob
            { lower := initLower lb, upper := initUpper ub, result := none,
              dom := (setUpLP stn dec).dom, vals := fun _ => 0,
              probes := [] }).2).getLast? = some aL := by
          rcases hgl : (feasAlphas (sreaLoop o invcdf_norm stn dec ra
              (setUpLP stn dec).bounds (setUpLP stn dec).deltas (setUpLP stn dec).prob
              { lower := initLower lb, upper := initUpper ub, result := none,
                dom := (setUpLP stn dec).dom, vals := fun _ => 0,
                probes := [] }).2).getLast? with _ | aL
          · exact absurd (List.getLast?_eq_none_iff.mp hgl) hfa
          · exact ⟨aL, rfl⟩
        rcases hex with ⟨aL, hgl⟩
        rcases hchar.2 aL (Or.inl hgl) with ⟨vals, hout⟩
        rw [hout] at hr
        have hr' := Option.some.inj (by injection hr)
        refine ⟨stn, vals, rfl, ?_⟩
        rw [← hr']
        cases ra
        · rfl
        · rfl
  · intro s keys vals a b h
    exact commitBounds_w_other s keys vals a b h

/-
A fully concrete run of the calibrator: lb = ub = 1/2 gives the initial
interval [499, 501], so the search probes the single tick 500 (alpha 1/2);
with the always-Optimal oracle the trial is feasible and the loop commits
immediately.
-/

theorem initLower_half : initLower (1/2) = 499 := by
  unfold initLower
  rw [show ((1:ℚ)/2 * 1000) = 500 by norm_num]
  norm_num

theorem initUpper_half : initUpper (1/2) = 501 := by
  unfold initUpper
  rw [show ((1:ℚ)/2 * 1000) = 500 by norm_num]
  norm_num

theorem iterA : sreaIter oOpt icn0 stn0 false (setUpLP stn0 false).bounds
    (setUpLP stn0 false).deltas (setUpLP stn0 false).prob
    { lower := 499, upper := 501, result := none,
      dom := (setUpLP stn0 false).dom, vals := fun _ => 0, probes := [] }
    = ({ lower := 499, upper := 500,
         result := some ((((500:ℤ):ℚ))/1000, (setUpLP stn0 false).bounds),
         dom := (setUpLP stn0 false).dom, vals := fun _ => 0,
         probes := [(500, true)] }, Event.solve ((((500:ℤ):ℚ))/1000) true) := rfl

theorem loopA : sreaLoop oOpt icn0 stn0 false true (setUpLP stn0 false).bounds
    (setUpLP stn0 false).deltas (setUpLP stn0 false).prob
    { lower := 499, upper := 501, result := none,
      dom := (setUpLP stn0 false).dom, vals := fun _ => 0, probes := [] }
    = (SreaOut.ret (some (SreaRet.pair ((1:ℚ)/2)
        (commitBounds stn0 (setUpLP stn0 false).bounds (fun _ => 0)))),
       [Event.solve ((1:ℚ)/2) true]) := by
  rw [sreaLoop]
  norm_num [iterA]

theorem runA : srea oOpt icn0 gmnId stn0 true false (1/2) (1/2)
    = (SreaOut.ret (some (SreaRet.pair ((1:ℚ)/2)
        (commitBounds stn0 (setUpLP stn0 false).bounds (fun _ => 0)))),
       [Event.reduce, Event.build, Event.solve ((1:ℚ)/2) true]) := by
  unfold srea
  rw [initLower_half, initUpper_half]
  norm_num [workingNet, gmnId, loopA]

/--
Witness for C1 at the concrete single-trial run: the last (only) feasible
trial has alpha 1/2, and the theorem yields the committed pair.
-/
theorem c1_witness :
    ∃ stnW : STN, ∃ vals : Var → ℚ,
      workingNet gmnId stn0 false = some stnW ∧
      (srea oOpt icn0 gmnId stn0 true false (1/2) (1/2)).1 =
        SreaOut.ret (some (if true then
            SreaRet.pair (1/2) (commitBounds stnW (setUpLP stnW false).bounds vals)
          else
            SreaRet.net (commitBounds stnW (setUpLP stnW false).bounds vals))) ∧
      (∀ i : Node, i ≠ 0 → (i, Sign.plus) ∈ (setUpLP stnW false).bounds →
        (commitBounds stnW (setUpLP stnW false).bounds vals).get_edge_weight 0 i =
          ((Int.ceil (vals (Var.bnd i Sign.plus)) : ℤ) : ℚ)) ∧
      (∀ i : Node, i ≠ 0 → (i, Sign.minus) ∈ (setUpLP stnW false).bounds →
        (commitBounds stnW (setUpLP stnW false).bounds vals).get_edge_weight i 0 =
          ((Int.ceil (-(vals (Var.bnd i Sign.minus))) : ℤ) : ℚ)) :=
  (c1_commit_on_success oOpt icn0 gmnId stn0 true false (1/2) (1/2)).2 (1/2)
    (by rw [runA]; rfl)

/--
Witness for C9 at the same concrete run: the returned network is the commit
applied to the working network, and a concrete off-commit edge is untouched.
-/
theorem c9_witness :
    (∃ stnW : STN, ∃ vals : Var → ℚ,
      workingNet gmnId stn0 false = some stnW ∧
      retNet (SreaRet.pair ((1:ℚ)/2)
          (commitBounds stn0 (setUpLP stn0 false).bounds (fun _ => 0))) =
        commitBounds stnW (setUpLP stnW false).bounds vals) ∧
    (commitBounds stnB [(1, Sign.plus)] vals0).get_edge_weight 2 2 =
      stnB.get_edge_weight 2 2 :=
  ⟨(c9_commit_frame oOpt icn0 gmnId stn0 true false (1/2) (1/2)).1 _ (by rw [runA]),
   (c9_commit_frame oOpt icn0 gmnId stn0 true false (1/2) (1/2)).2 stnB
     [(1, Sign.plus)] vals0 2 2 (by
       intro i sg h
       simp only [List.mem_singleton, Prod.mk.injEq] at h
       rcases h with ⟨rfl, rfl⟩
       exact ⟨by decide, by decide⟩)⟩

end SREA
